import Mathlib

/-!
# CArray: a shallow embedding of `src/src/CArray.c`

The container of `CArray.c` is a header (`msize`, `size`, `capacity`) plus a heap
buffer `elements` of raw bytes.  Here the buffer is a list of bytes, every pointer
is an offset into that list, and the three `uint64_t` fields are natural numbers on
which every C operation that can wrap is reduced modulo `2 ^ 64`.

A C function that mutates the array through its handle becomes a function from the
old array to an outcome holding the returned `bool`, the value assigned to `errno`
(if any) and the array after the call.  A memory access outside the bytes of a
buffer is undefined behaviour in C; in the embedding it is the fault
`Fault.out_of_bounds`, so a call that evaluates to `Except.ok` performed only
in-bounds accesses.  `free` has no effect on the values the code computes and is
not represented; the outcome of each `malloc` or `calloc` call is a parameter.
-/

namespace CArray

/-! ## Machine model -/

/-- One byte of raw memory. -/
abbrev Byte := Fin 256

/-- Reduction of a natural number to the range of `uint64_t`. -/
def u64 (n : Nat) : Nat := n % 2 ^ 64

/-- Ways in which the execution of the embedded code can fail to produce a C result. -/
inductive Fault where
  /-- A read or write outside the bytes of a buffer. -/
  | out_of_bounds
  /-- The iteration budget of an embedded ascending loop was exhausted. -/
  | out_of_fuel
  deriving DecidableEq, Repr

deriving instance DecidableEq for Except

/-- The call `memcpy(dst + doff, src + soff, n)`: the `n` bytes of `src` starting at `soff`
replace the `n` bytes of `dst` starting at `doff`.  Both ranges must lie inside
their buffers. -/
def memcpy (dst : List Byte) (doff : Nat) (src : List Byte) (soff n : Nat) :
    Except Fault (List Byte) :=
  if soff + n ≤ src.length ∧ doff + n ≤ dst.length then
    .ok (dst.take doff ++ (src.drop soff).take n ++ dst.drop (doff + n))
  else
    .error .out_of_bounds

/-- The call `memmove(buf + doff, buf + soff, n)` inside one buffer: the source bytes are
read before any byte is written, so overlapping ranges are allowed. -/
def memmove (buf : List Byte) (doff soff n : Nat) : Except Fault (List Byte) :=
  memcpy buf doff buf soff n

/-- The `n` bytes of `buf` starting at `off`, as seen through the pointer `buf + off`. -/
def load (buf : List Byte) (off n : Nat) : Except Fault (List Byte) :=
  if off + n ≤ buf.length then .ok ((buf.drop off).take n) else .error .out_of_bounds

/-- The call `calloc(nmemb, size)`: `none` is the `NULL` result.  The flag `ok` is the
decision of the allocator for this call; a request whose byte count does not fit in
`size_t` is always refused.  A successful call returns zero-filled memory. -/
def calloc (ok : Bool) (nmemb size : Nat) : Option (List Byte) :=
  if ok = true ∧ nmemb * size < 2 ^ 64 then some (List.replicate (nmemb * size) 0) else none

/-! ## Constants of `CArray.h` -/

def CARRAY_CAPACITY_DEFAULT : Nat := 0x10
def CARRAY_SIZE_DEFAULT : Nat := 0
def CARRAY_MSIZE_MIN : Nat := 1
def CARRAY_MSIZE_MAX : Nat := 0xFFF
def ENOMEM : Nat := 12
def EEMPTY : Nat := 899
def ENOTFOUND : Nat := 999
def EMSIZE : Nat := 9191
def EBOUNDS : Nat := 9393
def ESIZENE : Nat := 8481

end CArray

/-- The record `struct CArray`: element width, number of elements, number of
allocated slots, and the bytes of the heap buffer `elements`. -/
structure CArray where
  msize : Nat
  size : Nat
  capacity : Nat
  elements : List CArray.Byte
  deriving DecidableEq, Repr

namespace CArray

/-- Result of a call that may mutate the array: the returned `bool`, the value the
call assigned to `errno` (`none` when it assigned nothing) and the array after the
call. -/
structure Outcome where
  ret : Bool
  errno : Option Nat
  array : CArray
  deriving DecidableEq, Repr

/-- Result of `carray_read`: as `Outcome`, plus the buffer of the caller `out_ele` after
the call. -/
structure ReadOutcome where
  ret : Bool
  errno : Option Nat
  array : CArray
  out_ele : List Byte
  deriving DecidableEq, Repr

/-- Result of `carray_search`: as `Outcome`, plus the value stored through
`found_at` (`none` when nothing was stored). -/
structure SearchOutcome where
  ret : Bool
  errno : Option Nat
  array : CArray
  found_at : Option Nat
  deriving DecidableEq, Repr

/-! ## `carray_create` -/

/-- The block `// resize if needed` of `carray_create` (lines 26-43).  The result
`none` is the `return false` after a `NULL` from `calloc`; otherwise the array
after the block. -/
def carray_create_grow (calloc_ok : Bool) (array : CArray) : Except Fault (Option CArray) :=
  if array.size = array.capacity then
    match calloc calloc_ok (u64 (array.capacity * 2)) array.msize with
    | none => .ok none
    | some new_elements => do
      let new_elements ← memcpy new_elements 0 array.elements 0 (u64 (array.msize * array.size))
      pure (some { array with elements := new_elements, capacity := u64 (array.capacity * 2) })
  else
    pure (some array)

/-- The loop `for (i = size; i > at; --i) memmove(slot i, slot i - 1, msize)` of
`carray_create` (lines 46-53), started with the counter at `i`. -/
def carray_create_shift (msize at_ : Nat) : Nat → List Byte → Except Fault (List Byte)
  | 0, elements => pure elements
  | i + 1, elements =>
    if i + 1 > at_ then do
      let elements ← memmove elements (u64 ((i + 1) * msize)) (u64 (i * msize)) msize
      carray_create_shift msize at_ i elements
    else
      pure elements

/-- The function `carray_create(array, in_ele, at)`.  `calloc_ok` is the decision
of the allocator for the one `calloc` call the function can make. -/
def carray_create (calloc_ok : Bool) (array : CArray) (in_ele : List Byte) (at_ : Nat) :
    Except Fault Outcome :=
  if at_ > array.size then
    pure { ret := false, errno := some EBOUNDS, array := array }
  else do
    match ← carray_create_grow calloc_ok array with
    | none => pure { ret := false, errno := some ENOMEM, array := array }
    | some grown =>
      let elements ← carray_create_shift grown.msize at_ grown.size grown.elements
      let elements ← memcpy elements (u64 (at_ * grown.msize)) in_ele 0 grown.msize
      pure { ret := true, errno := none,
             array := { grown with elements := elements, size := u64 (grown.size + 1) } }

/-! ## `carray_read`, `carray_update` -/

/-- The function `carray_read(array, out_ele, at)`; `out_ele` is the buffer of
the caller before the call. -/
def carray_read (array : CArray) (out_ele : List Byte) (at_ : Nat) : Except Fault ReadOutcome :=
  if array.size = 0 then
    pure { ret := false, errno := some EEMPTY, array := array, out_ele := out_ele }
  else if at_ ≥ array.size then
    pure { ret := false, errno := some EBOUNDS, array := array, out_ele := out_ele }
  else do
    let out ← memcpy out_ele 0 array.elements (u64 (at_ * array.msize)) array.msize
    pure { ret := true, errno := none, array := array, out_ele := out }

/-- The function `carray_update(array, in_ele, at)`. -/
def carray_update (array : CArray) (in_ele : List Byte) (at_ : Nat) : Except Fault Outcome :=
  if array.size = 0 then
    pure { ret := false, errno := some EEMPTY, array := array }
  else if at_ ≥ array.size then
    pure { ret := false, errno := some EBOUNDS, array := array }
  else do
    let elements ← memcpy array.elements (u64 (at_ * array.msize)) in_ele 0 array.msize
    pure { ret := true, errno := none, array := { array with elements := elements } }

/-! ## `carray_delete` -/

/-- The loop `for (i = at; i < size; ++i) memmove(slot i, slot i + 1, msize)` of
`carray_delete` (lines 133-140), where `size` is the already decremented length.
The first argument bounds the number of iterations. -/
def carray_delete_shift (msize size : Nat) : Nat → Nat → List Byte → Except Fault (List Byte)
  | 0, i, elements => if i < size then .error .out_of_fuel else pure elements
  | fuel + 1, i, elements =>
    if i < size then do
      let elements ← memmove elements (u64 (i * msize)) (u64 ((i + 1) * msize)) msize
      carray_delete_shift msize size fuel (u64 (i + 1)) elements
    else
      pure elements

/-- The function `carray_delete(array, at)`. -/
def carray_delete (array : CArray) (at_ : Nat) : Except Fault Outcome :=
  if array.size = 0 then
    pure { ret := false, errno := some EEMPTY, array := array }
  else if at_ ≥ array.size then
    pure { ret := false, errno := some EBOUNDS, array := array }
  else do
    let size := u64 (array.size - 1)
    let elements ← carray_delete_shift array.msize size size at_ array.elements
    pure { ret := true, errno := none, array := { array with size := size, elements := elements } }

/-! ## `carray_search` -/

/-- The loop of `carray_search` (lines 159-170), started at index `i`: `some k` is
the index stored through `found_at` before `return true`, `none` is the exit of
the loop without a match.  The callback `equals` receives the `msize` bytes of
the slot it is pointed at. -/
def carray_search_loop (array : CArray) (search_ele : List Byte)
    (equals : List Byte → List Byte → Bool) : Nat → Nat → Except Fault (Option Nat)
  | 0, i => if i < array.size then .error .out_of_fuel else pure none
  | fuel + 1, i =>
    if i < array.size then do
      let ele ← load array.elements (u64 (i * array.msize)) array.msize
      if equals ele search_ele = true then
        pure (some i)
      else
        carray_search_loop array search_ele equals fuel (u64 (i + 1))
    else
      pure none

/-- The function `carray_search(array, search_ele, found_at, equals)`. -/
def carray_search (array : CArray) (search_ele : List Byte)
    (equals : List Byte → List Byte → Bool) : Except Fault SearchOutcome :=
  if array.size = 0 then
    pure { ret := false, errno := some EEMPTY, array := array, found_at := none }
  else do
    match ← carray_search_loop array search_ele equals array.size 0 with
    | some i => pure { ret := true, errno := none, array := array, found_at := some i }
    | none => pure { ret := false, errno := some ENOTFOUND, array := array, found_at := none }

/-! ## `carray_new`, `carray_resize` -/

/-- The function `carray_new(msize)`: `none` is the `NULL` result.  `malloc_ok` and
`calloc_ok` are the decisions of the allocator for the header and for the buffer. -/
def carray_new (malloc_ok calloc_ok : Bool) (msize : Nat) : Option Nat × Option CArray :=
  if msize > CARRAY_MSIZE_MAX ∨ msize < CARRAY_MSIZE_MIN then
    (some EMSIZE, none)
  else if malloc_ok = false then
    (some ENOMEM, none)
  else
    match calloc calloc_ok CARRAY_CAPACITY_DEFAULT msize with
    | none => (some ENOMEM, none)
    | some elements =>
      (none, some { msize := msize, size := CARRAY_SIZE_DEFAULT,
                    capacity := CARRAY_CAPACITY_DEFAULT, elements := elements })

/-- The function `carray_resize(array, new_capacity)`. -/
def carray_resize (calloc_ok : Bool) (array : CArray) (new_capacity : Nat) :
    Except Fault Outcome :=
  let resized_capacity :=
    if new_capacity < CARRAY_CAPACITY_DEFAULT then CARRAY_CAPACITY_DEFAULT else new_capacity
  let resized_size := if new_capacity < array.size then new_capacity else array.size
  match calloc calloc_ok resized_capacity array.msize with
  | none => pure { ret := false, errno := some ENOMEM, array := array }
  | some resized_elements => do
    let resized_elements ←
      if resized_size > 0 then
        memcpy resized_elements 0 array.elements 0 (u64 (resized_size * array.msize))
      else
        pure resized_elements
    pure { ret := true, errno := none,
           array := { array with elements := resized_elements, size := resized_size,
                                 capacity := resized_capacity } }

/-! ## Logical view -/

/-- The `msize` bytes of slot `i` of a buffer. -/
def slot (msize : Nat) (elements : List Byte) (i : Nat) : List Byte :=
  (elements.drop (i * msize)).take msize

/-- The contents of an array: its first `size` slots, in index order. -/
def contents (array : CArray) : List (List Byte) :=
  (List.range array.size).map (slot array.msize array.elements)

/-- The representation invariant of a live array: the element width is at least
`CARRAY_MSIZE_MIN`, the length does not exceed the capacity, and the buffer holds
exactly `capacity * msize` bytes, a byte count that fits in `size_t`. -/
def Valid (array : CArray) : Prop :=
  CARRAY_MSIZE_MIN ≤ array.msize ∧ array.size ≤ array.capacity ∧
    array.elements.length = array.capacity * array.msize ∧
    array.capacity * array.msize < 2 ^ 64

instance (array : CArray) : Decidable (Valid array) :=
  inferInstanceAs (Decidable (_ ∧ _ ∧ _ ∧ _))

/-! ## Scenarios and sample arrays -/

/-- The four bytes of a 32-bit integer, least significant byte first. -/
def le32 (v : Nat) : List Byte :=
  [Fin.ofNat v, Fin.ofNat (v / 2 ^ 8), Fin.ofNat (v / 2 ^ 16), Fin.ofNat (v / 2 ^ 24)]

/-- The scenario of the specification: a new array of element width 4 on which
`carray_create` is called with `x` at index 0, `y` at index 0 and `z` at index 1.
Every allocation is granted; `none` is a `NULL` from `carray_new`. -/
def create_three (x y z : List Byte) : Option (Except Fault Outcome) :=
  (carray_new true true 4).2.map fun array => do
    let r ← carray_create true array x 0
    let r ← carray_create true r.array y 0
    carray_create true r.array z 1

/-- A sequence of `carray_create` calls, each given by the decision of the allocator, the
element and the index; `none` when one of the calls returns false. -/
def create_all (array : CArray) : List (Bool × List Byte × Nat) → Except Fault (Option CArray)
  | [] => pure (some array)
  | (calloc_ok, in_ele, at_) :: rest => do
    let r ← carray_create calloc_ok array in_ele at_
    if r.ret = true then create_all r.array rest else pure none

/-- A new array of element width 4, as `carray_new(4)` returns it. -/
def sample_empty : CArray :=
  { msize := 4, size := 0, capacity := 16, elements := List.replicate 64 0 }

/-- An array of element width 4 holding the five integers 1, 2, 3, 4, 5. -/
def sample_five : CArray :=
  { msize := 4, size := 5, capacity := 16,
    elements := le32 1 ++ le32 2 ++ le32 3 ++ le32 4 ++ le32 5 ++ List.replicate 44 0 }

/-- A full array of element width 1: sixteen elements in sixteen slots. -/
def sample_full : CArray :=
  { msize := 1, size := 16, capacity := 16, elements := List.replicate 16 7 }

/-- Seventeen insertions at the end of an array of element width 1, every allocation
granted. -/
def seventeen_appends : List (Bool × List Byte × Nat) :=
  (List.range 17).map (fun i => (true, [7], i))

/-! ## `carray_equals` -/

/-- Result of `carray_equals`: the returned `bool` and the value the call assigned to
`errno` (`none` when it assigned nothing). -/
structure EqualsOutcome where
  ret : Bool
  errno : Option Nat
  deriving DecidableEq, Repr

/-- The loop of `carray_equals` (lines 206-215), started at index `i`: `some b` is a
`return b` from inside the loop, `none` is the exit of the loop.  The callback
`equals` receives the bytes of the two slots it is pointed at. -/
def carray_equals_loop (array1 array2 : CArray) (equals : List Byte → List Byte → Bool) :
    Nat → Nat → Except Fault (Option Bool)
  | 0, i => if i < array1.size then .error .out_of_fuel else pure none
  | fuel + 1, i =>
    if i < array1.size then do
      let ele1 ← load array1.elements (u64 (i * array1.msize)) array1.msize
      let ele2 ← load array2.elements (u64 (i * array2.msize)) array2.msize
      if equals ele1 ele2 = false then
        pure (some true)
      else
        carray_equals_loop array1 array2 equals fuel (u64 (i + 1))
    else
      pure none

/-- The function `carray_equals(array1, array2, equals)`. -/
def carray_equals (array1 array2 : CArray) (equals : List Byte → List Byte → Bool) :
    Except Fault EqualsOutcome :=
  if array1.msize ≠ array2.msize then
    pure { ret := false, errno := some EMSIZE }
  else if array1.size = 0 ∨ array2.size = 0 then
    pure { ret := false, errno := some EEMPTY }
  else if array1.size ≠ array2.size then
    pure { ret := false, errno := some ESIZENE }
  else do
    match ← carray_equals_loop array1 array2 equals array1.size 0 with
    | some b => pure { ret := b, errno := none }
    | none => pure { ret := true, errno := none }

/-! ## `carray_copy` -/

/-- Result of `carray_copy`: the value assigned to `errno` (if any), the returned
handle (`none` is `NULL`) and the source array after the call. -/
structure CopyOutcome where
  errno : Option Nat
  result : Option CArray
  array : CArray
  deriving DecidableEq, Repr

/-- The loop of `carray_copy` (lines 344-359), started at index `i` with the source
`array`, the clone `array_cpy` and the scratch buffer `read_buf`.  `grow_ok i` is
the decision of the allocator for the `calloc` call that `carray_create` can make
at index `i`. -/
def carray_copy_loop (grow_ok : Nat → Bool) :
    Nat → Nat → CArray → CArray → List Byte → Except Fault CopyOutcome
  | 0, i, array, array_cpy, _ =>
    if i < array.size then .error .out_of_fuel
    else pure { errno := none, result := some array_cpy, array := array }
  | fuel + 1, i, array, array_cpy, read_buf =>
    if i < array.size then do
      let r ← carray_read array read_buf i
      if r.ret = false then
        pure { errno := r.errno, result := none, array := r.array }
      else do
        let c ← carray_create (grow_ok i) array_cpy r.out_ele i
        if c.ret = false then
          pure { errno := c.errno, result := none, array := r.array }
        else
          carray_copy_loop grow_ok fuel (u64 (i + 1)) r.array c.array r.out_ele
    else
      pure { errno := none, result := some array_cpy, array := array }

/-- The function `carray_copy(array)`.  `malloc_ok` and `calloc_ok` are the decisions
of the allocator inside `carray_new`, `buf_ok` the one for `read_buf`, and
`grow_ok i` the one for the growth of the clone at index `i`. -/
def carray_copy (malloc_ok calloc_ok buf_ok : Bool) (grow_ok : Nat → Bool) (array : CArray) :
    Except Fault CopyOutcome :=
  match carray_new malloc_ok calloc_ok array.msize with
  | (errno, none) => pure { errno := errno, result := none, array := array }
  | (_, some array_cpy) =>
    if array.size = 0 then
      pure { errno := none, result := some array_cpy, array := array }
    else
      match calloc buf_ok 1 array.msize with
      | none => pure { errno := some ENOMEM, result := none, array := array }
      | some read_buf => carray_copy_loop grow_ok array.size 0 array array_cpy read_buf

/-! ## Sequences of calls -/

/-- One mutating call on an array, with the decision of the allocator where the
call can allocate. -/
inductive Op where
  | create (calloc_ok : Bool) (in_ele : List Byte) (at_ : Nat)
  | update (in_ele : List Byte) (at_ : Nat)
  | delete (at_ : Nat)
  | resize (calloc_ok : Bool) (new_capacity : Nat)
  deriving DecidableEq, Repr

/-- The call described by `op`, made on `array`. -/
def apply_op (array : CArray) : Op → Except Fault Outcome
  | .create calloc_ok in_ele at_ => carray_create calloc_ok array in_ele at_
  | .update in_ele at_ => carray_update array in_ele at_
  | .delete at_ => carray_delete array at_
  | .resize calloc_ok new_capacity => carray_resize calloc_ok array new_capacity

/-- The calls of `ops` made one after the other on the same handle, whether they
return true or false; the result is the array after the last call. -/
def run_ops (array : CArray) : List Op → Except Fault CArray
  | [] => pure array
  | op :: rest => do
    let r ← apply_op array op
    run_ops r.array rest

/-- The capacity `16 * 2 ^ k` is the smallest of 16, 32, 64, ... that is at least `n`. -/
def SmallestDoubling (capacity n : Nat) : Prop :=
  ∃ k, capacity = 16 * 2 ^ k ∧ n ≤ capacity ∧ ∀ j, n ≤ 16 * 2 ^ j → capacity ≤ 16 * 2 ^ j

/-! ## More sample arrays -/

/-- An array of element width 4 holding the three integers 1, 2, 3 in 100 slots, as
`carray_resize(a, 100)` leaves it. -/
def sample_three_wide : CArray :=
  { msize := 4, size := 3, capacity := 100,
    elements := le32 1 ++ le32 2 ++ le32 3 ++ List.replicate 388 0 }

/-- An array of element width 4 holding the five integers 5, 4, 3, 2, 1. -/
def sample_five_reversed : CArray :=
  { msize := 4, size := 5, capacity := 16,
    elements := le32 5 ++ le32 4 ++ le32 3 ++ le32 2 ++ le32 1 ++ List.replicate 44 0 }

/-- A sequence of calls on an array of element width 1 in which two calls return
false: a resize whose allocation is refused and a delete out of bounds. -/
def sample_ops : List Op :=
  [.create true [1] 0, .create true [2] 0, .create true [3] 2, .resize false 40,
   .resize true 2, .delete 5, .update [9] 0, .delete 1]

/-! ## Slot accesses

The functions below are `carray_create`, `carray_read`, `carray_update`,
`carray_delete` and `carray_search` once more, each statement that reads or writes
the element buffer of the array followed by a record of the slots it touched.
Erasing the record gives back the functions above (`create_log_erase` and the
lemmas next to it). -/

theorem u64_of_lt {n : Nat} (h : n < 2 ^ 64) : u64 n = n := Nat.mod_eq_of_lt h

theorem mul_succ_le {k i : Nat} (m : Nat) (h : k < i) : k * m + m ≤ i * m := by
  have := Nat.mul_le_mul_right m (Nat.succ_le_of_lt h)
  rw [Nat.succ_mul] at this
  exact this

theorem splice_getElem? {α : Type} (dst p : List α) (off : Nat)
    (h : off + p.length ≤ dst.length) (j : Nat) :
    (dst.take off ++ p ++ dst.drop (off + p.length))[j]? =
      if j < off then dst[j]? else if j < off + p.length then p[j - off]? else dst[j]? := by
  have h1 : (dst.take off).length = off := by simp; omega
  simp only [List.getElem?_append, List.length_append, h1, List.getElem?_take, List.getElem?_drop]
  split_ifs <;> first | rfl | omega | (congr 1; omega)

theorem slot_getElem? (m : Nat) (buf : List Byte) (k j : Nat) :
    (slot m buf k)[j]? = if j < m then buf[k * m + j]? else none := by
  simp [slot, List.getElem?_take, List.getElem?_drop]

theorem slot_length (m : Nat) (buf : List Byte) (k : Nat) (h : k * m + m ≤ buf.length) :
    (slot m buf k).length = m := by
  simp [slot]; omega

theorem memcpy_ok (dst : List Byte) (doff : Nat) (src : List Byte) (soff n : Nat)
    (hs : soff + n ≤ src.length) (hd : doff + n ≤ dst.length) :
    memcpy dst doff src soff n =
      .ok (dst.take doff ++ (src.drop soff).take n ++ dst.drop (doff + n)) := by
  simp [memcpy, hs, hd]

theorem memcpy_length {dst src out : List Byte} {doff soff n : Nat}
    (h : memcpy dst doff src soff n = .ok out) : out.length = dst.length := by
  unfold memcpy at h
  split at h
  · rename_i hb
    cases h
    simp
    omega
  · cases h

theorem memcpy_bounds {dst src out : List Byte} {doff soff n : Nat}
    (h : memcpy dst doff src soff n = .ok out) :
    soff + n ≤ src.length ∧ doff + n ≤ dst.length := by
  unfold memcpy at h
  split at h
  · assumption
  · cases h

/-- Writing `m` bytes over slot `i` replaces that slot and leaves every other slot alone. -/
theorem slot_memcpy (m : Nat) (dst src : List Byte) (i soff : Nat)
    (hs : soff + m ≤ src.length) (hd : i * m + m ≤ dst.length) :
    ∃ out, memcpy dst (i * m) src soff m = .ok out ∧ out.length = dst.length ∧
      ∀ k, slot m out k = if k = i then (src.drop soff).take m else slot m dst k := by
  refine ⟨_, memcpy_ok _ _ _ _ _ hs hd, ?_, ?_⟩
  · simp; omega
  · intro k
    have hp : ((src.drop soff).take m).length = m := by simp; omega
    apply List.ext_getElem?
    intro j
    have hsp := splice_getElem? dst ((src.drop soff).take m) (i * m) (by rw [hp]; exact hd)
    rw [hp] at hsp
    rw [slot_getElem?, hsp]
    by_cases hk : k = i
    · subst hk
      simp only [if_true]
      by_cases hj : j < m
      · have e : k * m + j - k * m = j := by omega
        simp [hj, e]
      · have : ((src.drop soff).take m).length ≤ j := by omega
        simp [hj, List.getElem?_eq_none this]
    · simp only [hk, if_false]
      rw [slot_getElem?]
      by_cases hj : j < m
      · simp only [hj, if_true]
        rcases Nat.lt_or_gt_of_ne hk with hlt | hgt
        · have := mul_succ_le m hlt
          have h1 : k * m + j < i * m := by omega
          simp [h1]
        · have := mul_succ_le m hgt
          have h1 : ¬ k * m + j < i * m := by omega
          have h2 : ¬ k * m + j < i * m + m := by omega
          simp [h1, h2]
      · simp [hj]


/-! ## The two shifting loops -/

/-- The right shift of `carray_create` started at counter `i` moves each slot `k` with
`at < k ≤ i` from slot `k - 1` and leaves the other slots alone. -/
theorem create_shift_spec (m at_ : Nat) :
    ∀ (i : Nat) (buf : List Byte), (at_ < i → i * m + m ≤ buf.length) → buf.length < 2 ^ 64 →
      ∃ out, carray_create_shift m at_ i buf = .ok out ∧ out.length = buf.length ∧
        ∀ k, slot m out k = if at_ < k ∧ k ≤ i then slot m buf (k - 1) else slot m buf k := by
  intro i
  induction i with
  | zero =>
    intro buf _ _
    refine ⟨buf, rfl, rfl, ?_⟩
    intro k
    have : ¬ (at_ < k ∧ k ≤ 0) := by omega
    rw [if_neg this]
  | succ i ih =>
    intro buf hlen hmax
    have hsm : (i + 1) * m = i * m + m := Nat.succ_mul i m
    by_cases hgt : i + 1 > at_
    · have hlen := hlen hgt
      obtain ⟨out1, h1, hl1, hs1⟩ := slot_memcpy m buf buf (i + 1) (i * m) (by omega) hlen
      have hu1 : u64 ((i + 1) * m) = (i + 1) * m := u64_of_lt (by omega)
      have hu2 : u64 (i * m) = i * m := u64_of_lt (by omega)
      obtain ⟨out, h2, hl2, hs2⟩ := ih out1 (fun _ => by omega) (by omega)
      refine ⟨out, ?_, by omega, ?_⟩
      · simp only [carray_create_shift, hgt, if_true, memmove, hu1, hu2, h1]
        exact h2
      · intro k
        rw [hs2 k]
        by_cases hk : at_ < k ∧ k ≤ i
        · have hk2 : at_ < k ∧ k ≤ i + 1 := ⟨hk.1, by omega⟩
          have hne : k - 1 ≠ i + 1 := by omega
          simp [hk, hk2, hs1, hne]
        · simp only [hk, if_false]
          rw [hs1 k]
          by_cases hk3 : k = i + 1
          · subst hk3
            have : at_ < i + 1 ∧ i + 1 ≤ i + 1 := ⟨hgt, le_refl _⟩
            simp [this, slot]
          · have : ¬ (at_ < k ∧ k ≤ i + 1) := by omega
            simp [hk3, this]
    · refine ⟨buf, ?_, rfl, ?_⟩
      · simp [carray_create_shift, hgt]
        rfl
      · intro k
        have : ¬ (at_ < k ∧ k ≤ i + 1) := by omega
        rw [if_neg this]

/-- The left shift of `carray_delete` started at index `i` moves each slot `k` with
`i ≤ k < size` from slot `k + 1` and leaves the other slots alone; `size` iterations
are always enough. -/
theorem delete_shift_spec (m size : Nat) (hsize : size < 2 ^ 64) :
    ∀ (fuel i : Nat) (buf : List Byte), size ≤ i + fuel → size * m + m ≤ buf.length →
      buf.length < 2 ^ 64 →
      ∃ out, carray_delete_shift m size fuel i buf = .ok out ∧ out.length = buf.length ∧
        ∀ k, slot m out k = if i ≤ k ∧ k < size then slot m buf (k + 1) else slot m buf k := by
  intro fuel
  induction fuel with
  | zero =>
    intro i buf hf _ _
    have hi : ¬ i < size := by omega
    refine ⟨buf, by simp [carray_delete_shift, hi]; rfl, rfl, ?_⟩
    intro k
    have : ¬ (i ≤ k ∧ k < size) := by omega
    rw [if_neg this]
  | succ fuel ih =>
    intro i buf hf hlen hmax
    by_cases hi : i < size
    · have hsm : (i + 1) * m = i * m + m := Nat.succ_mul i m
      have hle := mul_succ_le m hi
      obtain ⟨out1, h1, hl1, hs1⟩ :=
        slot_memcpy m buf buf i ((i + 1) * m) (by omega) (by omega)
      have hu1 : u64 ((i + 1) * m) = (i + 1) * m := u64_of_lt (by omega)
      have hu2 : u64 (i * m) = i * m := u64_of_lt (by omega)
      have hu3 : u64 (i + 1) = i + 1 := u64_of_lt (by omega)
      obtain ⟨out, h2, hl2, hs2⟩ := ih (i + 1) out1 (by omega) (by omega) (by omega)
      refine ⟨out, ?_, by omega, ?_⟩
      · simp only [carray_delete_shift, hi, if_true, memmove, hu1, hu2, hu3, h1]
        exact h2
      · intro k
        rw [hs2 k]
        by_cases hk : i + 1 ≤ k ∧ k < size
        · have hk2 : i ≤ k ∧ k < size := ⟨by omega, hk.2⟩
          have hne : k + 1 ≠ i := by omega
          simp [hk, hk2, hs1, hne]
        · simp only [hk, if_false]
          rw [hs1 k]
          by_cases hk3 : k = i
          · subst hk3
            have : k ≤ k ∧ k < size := ⟨le_refl _, hi⟩
            simp [this, slot]
          · have : ¬ (i ≤ k ∧ k < size) := by omega
            simp [hk3, this]
    · refine ⟨buf, by simp [carray_delete_shift, hi]; rfl, rfl, ?_⟩
      intro k
      have : ¬ (i ≤ k ∧ k < size) := by omega
      rw [if_neg this]


/-! ## Lists of slots -/

theorem map_range_getElem? {α : Type} (f : Nat → α) (n j : Nat) :
    ((List.range n).map f)[j]? = if j < n then some (f j) else none := by
  by_cases h : j < n
  · simp [h, List.getElem?_range h]
  · have : ((List.range n).map f).length ≤ j := by simp; omega
    simp [h, List.getElem?_eq_none this]

theorem contents_getElem? (a : CArray) (j : Nat) :
    (contents a)[j]? = if j < a.size then some (slot a.msize a.elements j) else none :=
  map_range_getElem? _ _ _

theorem contents_length (a : CArray) : (contents a).length = a.size := by
  simp [contents]

theorem insert_getElem? {α : Type} (s : List α) (e : α) (i : Nat) (h : i ≤ s.length) (j : Nat) :
    (s.take i ++ [e] ++ s.drop i)[j]? =
      if j < i then s[j]? else if j = i then some e else s[j - 1]? := by
  have h1 : (s.take i).length = i := by simp; omega
  simp only [List.getElem?_append, List.length_append, h1, List.getElem?_take,
    List.getElem?_drop, List.length_singleton]
  by_cases hj : j < i
  · have : j < i + 1 := by omega
    simp [hj, this]
  · by_cases hj2 : j = i
    · subst hj2
      simp
    · have h3 : ¬ j < i + 1 := by omega
      have h4 : i + (j - (i + 1)) = j - 1 := by omega
      simp [hj, hj2, h3, h4]

/-- The growth block of `carray_create` on a valid array: when it yields an array, that
array has the old width, length and slots, a buffer of the stated capacity, and
the capacity has doubled exactly when the array was full. -/
theorem create_grow_spec (calloc_ok : Bool) (a g : CArray) (hv : Valid a)
    (h : carray_create_grow calloc_ok a = .ok (some g)) :
    g.msize = a.msize ∧ g.size = a.size ∧
      g.capacity = (if a.size = a.capacity then 2 * a.capacity else a.capacity) ∧
      g.elements.length = g.capacity * g.msize ∧ g.capacity * g.msize < 2 ^ 64 ∧
      ∀ k, k < a.size → slot g.msize g.elements k = slot a.msize a.elements k := by
  obtain ⟨hm, hsz, hlen, hmax⟩ := hv
  unfold carray_create_grow at h
  by_cases hfull : a.size = a.capacity
  · rw [if_pos hfull] at h
    have hmc : a.msize * a.capacity = a.capacity * a.msize := Nat.mul_comm _ _
    unfold calloc at h
    by_cases hc : calloc_ok = true ∧ u64 (a.capacity * 2) * a.msize < 2 ^ 64
    · simp only [hc, and_self, if_true] at h
      have hu : u64 (a.msize * a.size) = a.msize * a.capacity := by
        rw [hfull]; exact u64_of_lt (by omega)
      rw [hu] at h
      cases hcp : memcpy (List.replicate (u64 (a.capacity * 2) * a.msize) 0) 0 a.elements 0
          (a.msize * a.capacity) with
      | error f => rw [hcp] at h; cases h
      | ok out =>
        rw [hcp] at h
        have hg : g = { a with elements := out, capacity := u64 (a.capacity * 2) } := by
          cases h; rfl
        have hb := (memcpy_bounds hcp).2
        have hl := memcpy_length hcp
        simp only [List.length_replicate, Nat.zero_add] at hb hl
        have hm1 : 1 ≤ a.msize := hm
        -- the copy fits only if the doubled capacity did not wrap
        have hnw : a.capacity * 2 < 2 ^ 64 := by
          by_contra hw
          have h1 : u64 (a.capacity * 2) = a.capacity * 2 - 2 ^ 64 := by
            unfold u64
            have hc1 : a.capacity < 2 ^ 64 := by nlinarith
            rw [Nat.mod_eq_sub_mod (by omega), Nat.mod_eq_of_lt (by omega)]
          have hc1 : a.capacity < 2 ^ 64 := by nlinarith
          have h2 : u64 (a.capacity * 2) + 1 ≤ a.capacity := by omega
          have h3 := Nat.mul_le_mul_right a.msize h2
          rw [Nat.add_mul] at h3
          omega
        have hu2 : u64 (a.capacity * 2) = 2 * a.capacity := by
          rw [u64_of_lt hnw, Nat.mul_comm]
        rw [hu2] at hg hl hb hc hcp
        subst hg
        refine ⟨rfl, rfl, by simp [hfull], hl, hc.2, ?_⟩
        intro k hk
        simp only
        rw [memcpy_ok _ _ _ _ _ (by omega) (by simpa using hb)] at hcp
        cases hcp
        apply List.ext_getElem?
        intro j
        rw [slot_getElem?, slot_getElem?]
        by_cases hj : j < a.msize
        · have hle := mul_succ_le a.msize hk
          have hlt : k * a.msize + j < a.msize * a.capacity := by
            rw [Nat.mul_comm a.msize, ← hfull]; omega
          have hlt2 : k * a.msize + j < a.elements.length := by
            rw [hlen, ← hfull]; omega
          simp [hj, List.getElem?_append, List.getElem?_take, hlt, hlt2]
        · simp [hj]
    · simp only [hc, if_false] at h
      cases h
  · rw [if_neg hfull] at h
    cases h
    exact ⟨rfl, rfl, by simp [hfull], hlen, hmax, fun _ _ => rfl⟩


/-! ## `carray_create` on a valid array -/

/-- The growth block yields an array when no growth is needed, or when the allocator
grants a request that fits in `size_t`. -/
theorem create_grow_ok (calloc_ok : Bool) (a : CArray) (hv : Valid a)
    (h : a.size < a.capacity ∨ (calloc_ok = true ∧ a.capacity * 2 * a.msize < 2 ^ 64)) :
    ∃ g, carray_create_grow calloc_ok a = .ok (some g) := by
  obtain ⟨hm, hsz, hlen, hmax⟩ := hv
  have hm1 : 1 ≤ a.msize := hm
  unfold carray_create_grow
  by_cases hfull : a.size = a.capacity
  · rcases h with h | ⟨hok, hfit⟩
    · omega
    · rw [if_pos hfull]
      have hmc : a.msize * a.capacity = a.capacity * a.msize := Nat.mul_comm _ _
      have hc2 : a.capacity * 2 < 2 ^ 64 := by nlinarith
      have hu1 : u64 (a.capacity * 2) = a.capacity * 2 := u64_of_lt hc2
      have hu2 : u64 (a.msize * a.size) = a.msize * a.capacity := by
        rw [hfull]; exact u64_of_lt (by omega)
      have hd : a.capacity * 2 * a.msize = a.capacity * a.msize + a.capacity * a.msize := by ring
      simp only [calloc, hok, hu1, hfit, and_self, if_true, hu2]
      rw [memcpy_ok _ _ _ _ _ (by omega) (by simp; omega)]
      exact ⟨_, rfl⟩
  · rw [if_neg hfull]
    exact ⟨a, rfl⟩

/-- After the growth block has produced `g`, `carray_create` on a valid array either
finds a free slot and succeeds, with the slots of the result as described, or
(zero capacity) writes outside the buffer. -/
theorem create_of_grow (calloc_ok : Bool) (a g : CArray) (e : List Byte) (at_ : Nat)
    (hv : Valid a) (he : a.msize ≤ e.length) (hat : at_ ≤ a.size)
    (hg : carray_create_grow calloc_ok a = .ok (some g)) :
    (a.size < g.capacity →
      ∃ out, carray_create calloc_ok a e at_ =
          .ok { ret := true, errno := none,
                array := { g with elements := out, size := a.size + 1 } } ∧
        out.length = g.elements.length ∧
        ∀ k, slot a.msize out k =
          if k = at_ then e.take a.msize
          else if at_ < k ∧ k ≤ a.size then slot a.msize g.elements (k - 1)
          else slot a.msize g.elements k) ∧
    (¬ a.size < g.capacity → carray_create calloc_ok a e at_ = .error .out_of_bounds) := by
  obtain ⟨hgm, hgs, hgc, hgl, hgmax, _⟩ := create_grow_spec calloc_ok a g hv hg
  obtain ⟨hm, hsz, hlen, hmax⟩ := hv
  have hm1 : 1 ≤ a.msize := hm
  have hnat : ¬ at_ > a.size := by omega
  unfold carray_create
  rw [if_neg hnat]
  simp only [bind, Except.bind, hg, hgm, hgs]
  constructor
  · intro hfree
    have hle := mul_succ_le a.msize hfree
    have hle2 : at_ * a.msize ≤ a.size * a.msize := Nat.mul_le_mul_right _ hat
    rw [hgm] at hgl hgmax
    obtain ⟨out1, h1, hl1, hs1⟩ :=
      create_shift_spec a.msize at_ a.size g.elements (fun _ => by omega) (by omega)
    obtain ⟨out2, h2, hl2, hs2⟩ :=
      slot_memcpy a.msize out1 e at_ 0 (by omega) (by omega)
    have hu1 : u64 (at_ * a.msize) = at_ * a.msize := u64_of_lt (by omega)
    have hc1 : g.capacity ≤ g.capacity * a.msize := Nat.le_mul_of_pos_right _ hm1
    have hu2 : u64 (a.size + 1) = a.size + 1 := u64_of_lt (by omega)
    refine ⟨out2, ?_, by omega, ?_⟩
    · rw [h1]
      simp only [hu1, h2, hu2]
      rfl
    · intro k
      rw [hs2 k]
      by_cases hk : k = at_
      · simp [hk]
      · simp only [hk, if_false]
        exact hs1 k
  · intro hfull
    have hcap : g.capacity = 0 ∧ a.size = 0 := by
      by_cases hf : a.size = a.capacity
      · rw [if_pos hf] at hgc; omega
      · rw [if_neg hf] at hgc; omega
    have hat0 : at_ = 0 := by omega
    have hlen0 : g.elements.length = 0 := by rw [hgl, hcap.1]; simp
    subst hat0
    rw [hcap.2]
    simp only [carray_create_shift, pure, Except.pure, Nat.zero_mul]
    have : ¬ (0 + a.msize ≤ e.length ∧ u64 0 + a.msize ≤ g.elements.length) := by
      rw [hlen0]; omega
    simp only [memcpy, this, if_false]


/-- The three ways in which `carray_create` returns: the bounds error, the allocation
error of the growth block, or success after the growth block produced an array. -/
theorem create_cases (calloc_ok : Bool) (a : CArray) (e : List Byte) (at_ : Nat) (r : Outcome)
    (h : carray_create calloc_ok a e at_ = .ok r) :
    (a.size < at_ ∧ r = { ret := false, errno := some EBOUNDS, array := a }) ∨
    (at_ ≤ a.size ∧ carray_create_grow calloc_ok a = .ok none ∧
      r = { ret := false, errno := some ENOMEM, array := a }) ∨
    (at_ ≤ a.size ∧ ∃ g, carray_create_grow calloc_ok a = .ok (some g) ∧
      r.ret = true ∧ r.errno = none ∧ r.array.capacity = g.capacity ∧
      r.array.msize = g.msize ∧ g.msize ≤ e.length) := by
  unfold carray_create at h
  by_cases hat : at_ > a.size
  · rw [if_pos hat] at h
    cases h
    exact Or.inl ⟨hat, rfl⟩
  · rw [if_neg hat] at h
    right
    cases hgr : carray_create_grow calloc_ok a with
    | error f => simp [bind, Except.bind, hgr] at h
    | ok og =>
      cases og with
      | none =>
        simp only [bind, Except.bind, hgr] at h
        cases h
        exact Or.inl ⟨by omega, rfl, rfl⟩
      | some g =>
        simp only [bind, Except.bind, hgr] at h
        right
        refine ⟨by omega, g, rfl, ?_⟩
        cases hsh : carray_create_shift g.msize at_ g.size g.elements with
        | error f => simp [hsh] at h
        | ok out1 =>
          simp only [hsh] at h
          cases hcp : memcpy out1 (u64 (at_ * g.msize)) e 0 g.msize with
          | error f => simp [hcp] at h
          | ok out2 =>
            simp only [hcp] at h
            cases h
            exact ⟨rfl, rfl, rfl, rfl, by have := (memcpy_bounds hcp).1; omega⟩


/-! ## Claims -/

/-- C1: on a valid array with contents `s`, for an element `e` of the width of the array and
an index `at ≤ size`, every successful `carray_create` leaves the contents
`take at s ++ [e] ++ drop at s` and the length `size + 1`: slot `at` holds `e`, the
indices below `at` are unchanged and every old index `i ≥ at` now sits at `i + 1`.
Such a call does succeed whenever a slot is free, or the allocator grants the
doubled buffer. -/
theorem carray_create_inserts (calloc_ok : Bool) (a : CArray) (e : List Byte) (at_ : Nat)
    (hv : Valid a) (he : e.length = a.msize) (hat : at_ ≤ a.size) :
    ((a.size < a.capacity ∨
        (calloc_ok = true ∧ 0 < a.capacity ∧ a.capacity * 2 * a.msize < 2 ^ 64)) →
      ∃ r, carray_create calloc_ok a e at_ = .ok r ∧ r.ret = true) ∧
    ∀ r, carray_create calloc_ok a e at_ = .ok r → r.ret = true →
      contents r.array = (contents a).take at_ ++ [e] ++ (contents a).drop at_ ∧
      r.array.size = a.size + 1 ∧
      (contents r.array)[at_]? = some e ∧
      (∀ i, i < at_ → (contents r.array)[i]? = (contents a)[i]?) ∧
      (∀ i, at_ ≤ i → i < a.size → (contents r.array)[i + 1]? = (contents a)[i]?) := by
  constructor
  · intro hfree
    obtain ⟨g, hg⟩ := create_grow_ok calloc_ok a hv
      (hfree.imp id (fun h => ⟨h.1, h.2.2⟩))
    obtain ⟨_, _, hgc, _⟩ := create_grow_spec calloc_ok a g hv hg
    have hlt : a.size < g.capacity := by
      have := hv.2.1
      by_cases hf : a.size = a.capacity
      · rw [if_pos hf] at hgc
        rcases hfree with h | h <;> omega
      · rw [if_neg hf] at hgc; omega
    obtain ⟨out, hr, _⟩ := (create_of_grow calloc_ok a g e at_ hv (by omega) hat hg).1 hlt
    exact ⟨_, hr, rfl⟩
  · intro r hr hret
    have key : contents r.array = (contents a).take at_ ++ [e] ++ (contents a).drop at_ ∧
        r.array.size = a.size + 1 := by
      rcases create_cases calloc_ok a e at_ r hr with ⟨_, h⟩ | ⟨_, _, h⟩ | ⟨_, g, hg, _⟩
      · rw [h] at hret; cases hret
      · rw [h] at hret; cases hret
      · obtain ⟨hgm, hgs, hgc, hgl, hgmax, hgsl⟩ := create_grow_spec calloc_ok a g hv hg
        have hog := create_of_grow calloc_ok a g e at_ hv (by omega) hat hg
        have hgsl2 : ∀ k, k < a.size → slot a.msize g.elements k = slot a.msize a.elements k := by
          intro k hk
          have := hgsl k hk
          rwa [hgm] at this
        by_cases hlt : a.size < g.capacity
        · obtain ⟨out, hr2, hl, hs⟩ := hog.1 hlt
          rw [hr] at hr2
          cases hr2
          refine ⟨?_, rfl⟩
          apply List.ext_getElem?
          intro j
          rw [insert_getElem? _ _ _ (by rw [contents_length]; exact hat), contents_getElem?,
            contents_getElem?, contents_getElem?]
          simp only [hgm]
          rw [hs j]
          have het : e.take a.msize = e := List.take_of_length_le (by omega)
          by_cases hj1 : j < at_
          · have h1 : j < a.size + 1 := by omega
            have h2 : j < a.size := by omega
            have h3 : j ≠ at_ := by omega
            have h4 : ¬ (at_ < j ∧ j ≤ a.size) := by omega
            rw [if_pos h1, if_pos hj1, if_pos h2, if_neg h3, if_neg h4, hgsl2 j h2]
          · by_cases hj2 : j = at_
            · have h1 : j < a.size + 1 := by omega
              rw [if_pos h1, if_neg hj1, if_pos hj2, if_pos hj2, het]
            · by_cases hj3 : j ≤ a.size
              · have h1 : j < a.size + 1 := by omega
                have h2 : j - 1 < a.size := by omega
                have h4 : at_ < j ∧ j ≤ a.size := by omega
                rw [if_pos h1, if_neg hj1, if_neg hj2, if_neg hj2, if_pos h4, if_pos h2,
                  hgsl2 _ h2]
              · have h1 : ¬ j < a.size + 1 := by omega
                have h2 : ¬ j - 1 < a.size := by omega
                rw [if_neg h1, if_neg hj1, if_neg hj2, if_neg h2]
        · rw [hog.2 hlt] at hr
          cases hr
    refine ⟨key.1, key.2, ?_, ?_, ?_⟩
    · rw [key.1, insert_getElem? _ _ _ (by rw [contents_length]; exact hat)]
      simp
    · intro i hi
      rw [key.1, insert_getElem? _ _ _ (by rw [contents_length]; exact hat), if_pos hi]
    · intro i hi1 hi2
      have h1 : ¬ i + 1 < at_ := by omega
      have h2 : i + 1 ≠ at_ := by omega
      rw [key.1, insert_getElem? _ _ _ (by rw [contents_length]; exact hat), if_neg h1,
        if_neg h2]
      rfl


theorem carray_create_inserts_witness :
    Valid sample_five ∧ (le32 9).length = sample_five.msize ∧ 2 ≤ sample_five.size ∧
      ∃ r, carray_create false sample_five (le32 9) 2 = .ok r ∧ r.ret = true ∧
        contents r.array = [le32 1, le32 2, le32 9, le32 3, le32 4, le32 5] := by
  have h := carray_create_inserts false sample_five (le32 9) 2 (by decide) (by decide) (by decide)
  obtain ⟨r, hr, hret⟩ := h.1 (Or.inl (by decide))
  exact ⟨by decide, by decide, by decide, r, hr, hret, by rw [(h.2 r hr hret).1]; decide⟩

/-- C2: on a valid array with contents `s` and for every index `at < size`,
`carray_delete` succeeds and leaves the contents `s` with the element at index `at`
removed (indices below `at` unchanged, every old index `i > at` now at `i - 1`), the
length reduced by one, and the capacity and the element width unchanged. -/
theorem carray_delete_removes (a : CArray) (at_ : Nat) (hv : Valid a) (hat : at_ < a.size) :
    ∃ r, carray_delete a at_ = .ok r ∧ r.ret = true ∧
      contents r.array = (contents a).eraseIdx at_ ∧
      r.array.size = a.size - 1 ∧ r.array.capacity = a.capacity ∧ r.array.msize = a.msize ∧
      (∀ i, i < at_ → (contents r.array)[i]? = (contents a)[i]?) ∧
      (∀ i, at_ < i → i < a.size → (contents r.array)[i - 1]? = (contents a)[i]?) := by
  obtain ⟨hm, hsz, hlen, hmax⟩ := hv
  have hm1 : 1 ≤ a.msize := hm
  have hc1 : a.capacity ≤ a.capacity * a.msize := Nat.le_mul_of_pos_right _ hm1
  have hu : u64 (a.size - 1) = a.size - 1 := u64_of_lt (by omega)
  have hsm : (a.size - 1) * a.msize + a.msize ≤ a.capacity * a.msize := by
    have h1 : a.size - 1 < a.capacity := by omega
    exact mul_succ_le a.msize h1
  obtain ⟨out, h1, hl1, hs1⟩ :=
    delete_shift_spec a.msize (a.size - 1) (by omega) (a.size - 1) at_ a.elements (by omega)
      (by omega) (by omega)
  have hne : ¬ a.size = 0 := by omega
  have hnb : ¬ at_ ≥ a.size := by omega
  have hrun : carray_delete a at_ =
      .ok { ret := true, errno := none,
            array := { a with size := a.size - 1, elements := out } } := by
    unfold carray_delete
    rw [if_neg hne, if_neg hnb]
    simp only [hu, bind, Except.bind, h1]
    rfl
  have key : contents { a with size := a.size - 1, elements := out } =
      (contents a).eraseIdx at_ := by
    apply List.ext_getElem?
    intro j
    rw [List.getElem?_eraseIdx, contents_getElem?, contents_getElem?, contents_getElem?]
    simp only
    rw [hs1 j]
    by_cases hj : j < at_
    · have h2 : j < a.size - 1 := by omega
      have h3 : j < a.size := by omega
      have h4 : ¬ (at_ ≤ j ∧ j < a.size - 1) := by omega
      rw [if_pos h2, if_pos hj, if_pos h3, if_neg h4]
    · by_cases hj2 : j < a.size - 1
      · have h3 : j + 1 < a.size := by omega
        have h4 : at_ ≤ j ∧ j < a.size - 1 := by omega
        rw [if_pos hj2, if_neg hj, if_pos h3, if_pos h4]
      · have h3 : ¬ j + 1 < a.size := by omega
        rw [if_neg hj2, if_neg hj, if_neg h3]
  refine ⟨_, hrun, rfl, key, rfl, rfl, rfl, ?_, ?_⟩
  · intro i hi
    rw [key, List.getElem?_eraseIdx, if_pos hi]
  · intro i hi1 hi2
    have h1 : ¬ i - 1 < at_ := by omega
    have h2 : i - 1 + 1 = i := by omega
    rw [key, List.getElem?_eraseIdx, if_neg h1, h2]

theorem carray_delete_removes_witness :
    Valid sample_five ∧ 1 < sample_five.size ∧
      ∃ r, carray_delete sample_five 1 = .ok r ∧ r.ret = true ∧
        contents r.array = [le32 1, le32 3, le32 4, le32 5] ∧ r.array.capacity = 16 := by
  obtain ⟨r, hr, hret, hc, _, hcap, _⟩ :=
    carray_delete_removes sample_five 1 (by decide) (by decide)
  exact ⟨by decide, by decide, r, hr, hret, by rw [hc]; decide, by rw [hcap]; decide⟩


/-! ## Return paths of `carray_read`, `carray_update`, `carray_delete`, `carray_resize` -/

theorem read_cases (a : CArray) (out : List Byte) (at_ : Nat) (r : ReadOutcome)
    (h : carray_read a out at_ = .ok r) :
    (a.size = 0 ∧ r = { ret := false, errno := some EEMPTY, array := a, out_ele := out }) ∨
    (a.size ≠ 0 ∧ a.size ≤ at_ ∧
      r = { ret := false, errno := some EBOUNDS, array := a, out_ele := out }) ∨
    (a.size ≠ 0 ∧ at_ < a.size ∧ r.ret = true ∧ r.errno = none ∧ r.array = a) := by
  unfold carray_read at h
  by_cases h0 : a.size = 0
  · rw [if_pos h0] at h
    cases h
    exact Or.inl ⟨h0, rfl⟩
  · rw [if_neg h0] at h
    by_cases hb : at_ ≥ a.size
    · rw [if_pos hb] at h
      cases h
      exact Or.inr (Or.inl ⟨h0, hb, rfl⟩)
    · rw [if_neg hb] at h
      cases hcp : memcpy out 0 a.elements (u64 (at_ * a.msize)) a.msize with
      | error f => simp [bind, Except.bind, hcp] at h
      | ok o =>
        simp only [bind, Except.bind, hcp] at h
        cases h
        exact Or.inr (Or.inr ⟨h0, by omega, rfl, rfl, rfl⟩)

theorem update_cases (a : CArray) (e : List Byte) (at_ : Nat) (r : Outcome)
    (h : carray_update a e at_ = .ok r) :
    (a.size = 0 ∧ r = { ret := false, errno := some EEMPTY, array := a }) ∨
    (a.size ≠ 0 ∧ a.size ≤ at_ ∧ r = { ret := false, errno := some EBOUNDS, array := a }) ∨
    (a.size ≠ 0 ∧ at_ < a.size ∧ r.ret = true ∧ r.errno = none) := by
  unfold carray_update at h
  by_cases h0 : a.size = 0
  · rw [if_pos h0] at h
    cases h
    exact Or.inl ⟨h0, rfl⟩
  · rw [if_neg h0] at h
    by_cases hb : at_ ≥ a.size
    · rw [if_pos hb] at h
      cases h
      exact Or.inr (Or.inl ⟨h0, hb, rfl⟩)
    · rw [if_neg hb] at h
      cases hcp : memcpy a.elements (u64 (at_ * a.msize)) e 0 a.msize with
      | error f => simp [bind, Except.bind, hcp] at h
      | ok o =>
        simp only [bind, Except.bind, hcp] at h
        cases h
        exact Or.inr (Or.inr ⟨h0, by omega, rfl, rfl⟩)

theorem delete_cases (a : CArray) (at_ : Nat) (r : Outcome)
    (h : carray_delete a at_ = .ok r) :
    (a.size = 0 ∧ r = { ret := false, errno := some EEMPTY, array := a }) ∨
    (a.size ≠ 0 ∧ a.size ≤ at_ ∧ r = { ret := false, errno := some EBOUNDS, array := a }) ∨
    (a.size ≠ 0 ∧ at_ < a.size ∧ r.ret = true ∧ r.errno = none) := by
  unfold carray_delete at h
  by_cases h0 : a.size = 0
  · rw [if_pos h0] at h
    cases h
    exact Or.inl ⟨h0, rfl⟩
  · rw [if_neg h0] at h
    by_cases hb : at_ ≥ a.size
    · rw [if_pos hb] at h
      cases h
      exact Or.inr (Or.inl ⟨h0, hb, rfl⟩)
    · rw [if_neg hb] at h
      cases hcp : carray_delete_shift a.msize (u64 (a.size - 1)) (u64 (a.size - 1)) at_
          a.elements with
      | error f => simp [bind, Except.bind, hcp] at h
      | ok o =>
        simp only [bind, Except.bind, hcp] at h
        cases h
        exact Or.inr (Or.inr ⟨h0, by omega, rfl, rfl⟩)

theorem resize_cases (calloc_ok : Bool) (a : CArray) (n : Nat) (r : Outcome)
    (h : carray_resize calloc_ok a n = .ok r) :
    r = { ret := false, errno := some ENOMEM, array := a } ∨
    (r.ret = true ∧ r.errno = none ∧ r.array.msize = a.msize ∧
      r.array.size = (if n < a.size then n else a.size) ∧
      r.array.capacity = (if n < CARRAY_CAPACITY_DEFAULT then CARRAY_CAPACITY_DEFAULT else n) ∧
      ∃ fresh,
        calloc calloc_ok (if n < CARRAY_CAPACITY_DEFAULT then CARRAY_CAPACITY_DEFAULT else n)
          a.msize = some fresh ∧
        (if (if n < a.size then n else a.size) > 0 then
            memcpy fresh 0 a.elements 0 (u64 ((if n < a.size then n else a.size) * a.msize))
          else pure fresh) = .ok r.array.elements) := by
  unfold carray_resize at h
  simp only at h
  cases hc : calloc calloc_ok (if n < CARRAY_CAPACITY_DEFAULT then CARRAY_CAPACITY_DEFAULT else n)
      a.msize with
  | none =>
    rw [hc] at h
    cases h
    exact Or.inl rfl
  | some fresh =>
    rw [hc] at h
    right
    simp only at h
    by_cases hpos : (if n < a.size then n else a.size) > 0
    · rw [if_pos hpos] at h
      cases hcp : memcpy fresh 0 a.elements 0 (u64 ((if n < a.size then n else a.size) * a.msize))
        with
      | error f => simp only [bind, Except.bind, hcp] at h; cases h
      | ok o =>
        simp only [bind, Except.bind, hcp] at h
        cases h
        exact ⟨rfl, rfl, rfl, rfl, rfl, fresh, rfl, by rw [if_pos hpos]; exact hcp⟩
    · rw [if_neg hpos] at h
      cases h
      exact ⟨rfl, rfl, rfl, rfl, rfl, fresh, rfl, by rw [if_neg hpos]; rfl⟩


/-- C3, as stated, fails on an empty array: at index 0 the index is `≥ size`, yet
`carray_read` does not fail with `EBOUNDS` (it fails with `EEMPTY`, the check that
comes first). -/
theorem carray_read_empty_not_ebounds :
    ¬ ((∃ r, carray_read sample_empty [0, 0, 0, 0] 0 = .ok r ∧ r.ret = false ∧
          r.errno = some EBOUNDS) ↔ 0 ≥ sample_empty.size) := by
  intro h
  obtain ⟨r, hr, _, he⟩ := h.mpr (by decide)
  have h2 : carray_read sample_empty [0, 0, 0, 0] 0 =
      .ok { ret := false, errno := some EEMPTY, array := sample_empty,
            out_ele := [0, 0, 0, 0] } := by decide
  rw [h2] at hr
  cases hr
  revert he
  decide

/-- C3, amended: for every array and index, each of `carray_read`, `carray_update` and
`carray_delete` fails with `EEMPTY` if and only if `size == 0`, and fails with
`EBOUNDS` if and only if `size != 0` and `at >= size`. -/
theorem read_update_delete_errors (a : CArray) (out e : List Byte) (at_ : Nat) :
    ((∃ r, carray_read a out at_ = .ok r ∧ r.ret = false ∧ r.errno = some EEMPTY) ↔
        a.size = 0) ∧
    ((∃ r, carray_read a out at_ = .ok r ∧ r.ret = false ∧ r.errno = some EBOUNDS) ↔
        (a.size ≠ 0 ∧ at_ ≥ a.size)) ∧
    ((∃ r, carray_update a e at_ = .ok r ∧ r.ret = false ∧ r.errno = some EEMPTY) ↔
        a.size = 0) ∧
    ((∃ r, carray_update a e at_ = .ok r ∧ r.ret = false ∧ r.errno = some EBOUNDS) ↔
        (a.size ≠ 0 ∧ at_ ≥ a.size)) ∧
    ((∃ r, carray_delete a at_ = .ok r ∧ r.ret = false ∧ r.errno = some EEMPTY) ↔
        a.size = 0) ∧
    ((∃ r, carray_delete a at_ = .ok r ∧ r.ret = false ∧ r.errno = some EBOUNDS) ↔
        (a.size ≠ 0 ∧ at_ ≥ a.size)) := by
  have hne : EBOUNDS ≠ EEMPTY := by decide
  refine ⟨⟨?_, ?_⟩, ⟨?_, ?_⟩, ⟨?_, ?_⟩, ⟨?_, ?_⟩, ⟨?_, ?_⟩, ⟨?_, ?_⟩⟩
  · rintro ⟨r, hr, hret, he⟩
    rcases read_cases a out at_ r hr with ⟨h0, _⟩ | ⟨_, _, h⟩ | ⟨_, _, ht, _⟩
    · exact h0
    · rw [h] at he; simp at he; exact absurd he hne
    · rw [ht] at hret; cases hret
  · intro h0
    exact ⟨_, by unfold carray_read; rw [if_pos h0]; rfl, rfl, rfl⟩
  · rintro ⟨r, hr, hret, he⟩
    rcases read_cases a out at_ r hr with ⟨_, h⟩ | ⟨h0, hb, _⟩ | ⟨_, _, ht, _⟩
    · rw [h] at he; simp at he; exact absurd he.symm hne
    · exact ⟨h0, hb⟩
    · rw [ht] at hret; cases hret
  · rintro ⟨h0, hb⟩
    exact ⟨_, by unfold carray_read; rw [if_neg h0, if_pos hb]; rfl, rfl, rfl⟩
  · rintro ⟨r, hr, hret, he⟩
    rcases update_cases a e at_ r hr with ⟨h0, _⟩ | ⟨_, _, h⟩ | ⟨_, _, ht, _⟩
    · exact h0
    · rw [h] at he; simp at he; exact absurd he hne
    · rw [ht] at hret; cases hret
  · intro h0
    exact ⟨_, by unfold carray_update; rw [if_pos h0]; rfl, rfl, rfl⟩
  · rintro ⟨r, hr, hret, he⟩
    rcases update_cases a e at_ r hr with ⟨_, h⟩ | ⟨h0, hb, _⟩ | ⟨_, _, ht, _⟩
    · rw [h] at he; simp at he; exact absurd he.symm hne
    · exact ⟨h0, hb⟩
    · rw [ht] at hret; cases hret
  · rintro ⟨h0, hb⟩
    exact ⟨_, by unfold carray_update; rw [if_neg h0, if_pos hb]; rfl, rfl, rfl⟩
  · rintro ⟨r, hr, hret, he⟩
    rcases delete_cases a at_ r hr with ⟨h0, _⟩ | ⟨_, _, h⟩ | ⟨_, _, ht, _⟩
    · exact h0
    · rw [h] at he; simp at he; exact absurd he hne
    · rw [ht] at hret; cases hret
  · intro h0
    exact ⟨_, by unfold carray_delete; rw [if_pos h0]; rfl, rfl, rfl⟩
  · rintro ⟨r, hr, hret, he⟩
    rcases delete_cases a at_ r hr with ⟨_, h⟩ | ⟨h0, hb, _⟩ | ⟨_, _, ht, _⟩
    · rw [h] at he; simp at he; exact absurd he.symm hne
    · exact ⟨h0, hb⟩
    · rw [ht] at hret; cases hret
  · rintro ⟨h0, hb⟩
    exact ⟨_, by unfold carray_delete; rw [if_neg h0, if_pos hb]; rfl, rfl, rfl⟩

/-- C4: for every array, element and index, `carray_create` fails with `EBOUNDS` if and
only if `at > size` (so `at == size` is accepted), and every call that fails with
`EBOUNDS` returns the array with width, length, capacity and buffer unchanged. -/
theorem carray_create_ebounds (calloc_ok : Bool) (a : CArray) (e : List Byte) (at_ : Nat) :
    ((∃ r, carray_create calloc_ok a e at_ = .ok r ∧ r.ret = false ∧ r.errno = some EBOUNDS) ↔
        at_ > a.size) ∧
    (∀ r, carray_create calloc_ok a e at_ = .ok r → r.ret = false → r.errno = some EBOUNDS →
        r.array = a) ∧
    (at_ = a.size → ¬ ∃ r, carray_create calloc_ok a e at_ = .ok r ∧ r.errno = some EBOUNDS) := by
  have hne : ENOMEM ≠ EBOUNDS := by decide
  refine ⟨⟨?_, ?_⟩, ?_, ?_⟩
  · rintro ⟨r, hr, hret, he⟩
    rcases create_cases calloc_ok a e at_ r hr with ⟨h, _⟩ | ⟨_, _, h⟩ | ⟨_, g, _, ht, _⟩
    · exact h
    · rw [h] at he; simp at he; exact absurd he hne
    · rw [ht] at hret; cases hret
  · intro hat
    exact ⟨_, by unfold carray_create; rw [if_pos hat]; rfl, rfl, rfl⟩
  · intro r hr hret he
    rcases create_cases calloc_ok a e at_ r hr with ⟨_, h⟩ | ⟨_, _, h⟩ | ⟨_, g, _, ht, _⟩
    · rw [h]
    · rw [h]
    · rw [ht] at hret; cases hret
  · rintro hat ⟨r, hr, he⟩
    rcases create_cases calloc_ok a e at_ r hr with ⟨h, _⟩ | ⟨_, _, h⟩ | ⟨_, g, _, _, hn, _⟩
    · omega
    · rw [h] at he; simp at he; exact absurd he hne
    · rw [hn] at he; cases he

theorem carray_create_ebounds_witness :
    ∃ r, carray_create true sample_five (le32 9) 6 = .ok r ∧ r.ret = false ∧
      r.errno = some EBOUNDS ∧ r.array = sample_five := by
  have h := carray_create_ebounds true sample_five (le32 9) 6
  obtain ⟨r, hr, hret, he⟩ := h.1.mpr (by decide)
  exact ⟨r, hr, hret, he, h.2.1 r hr hret he⟩

/-- C6: whenever `carray_create`, `carray_update`, `carray_delete` or `carray_resize`
returns false (index error, empty array, or a refused allocation during growth or
resize), the array after the call is the array before it: same element width, length,
capacity and buffer bytes. -/
theorem failure_leaves_array_unchanged (calloc_ok : Bool) (a : CArray) (e : List Byte)
    (at_ n : Nat) :
    (∀ r, carray_create calloc_ok a e at_ = .ok r → r.ret = false → r.array = a) ∧
    (∀ r, carray_update a e at_ = .ok r → r.ret = false → r.array = a) ∧
    (∀ r, carray_delete a at_ = .ok r → r.ret = false → r.array = a) ∧
    (∀ r, carray_resize calloc_ok a n = .ok r → r.ret = false → r.array = a) := by
  refine ⟨?_, ?_, ?_, ?_⟩
  · intro r hr hret
    rcases create_cases calloc_ok a e at_ r hr with ⟨_, h⟩ | ⟨_, _, h⟩ | ⟨_, g, _, ht, _⟩
    · rw [h]
    · rw [h]
    · rw [ht] at hret; cases hret
  · intro r hr hret
    rcases update_cases a e at_ r hr with ⟨_, h⟩ | ⟨_, _, h⟩ | ⟨_, _, ht, _⟩
    · rw [h]
    · rw [h]
    · rw [ht] at hret; cases hret
  · intro r hr hret
    rcases delete_cases a at_ r hr with ⟨_, h⟩ | ⟨_, _, h⟩ | ⟨_, _, ht, _⟩
    · rw [h]
    · rw [h]
    · rw [ht] at hret; cases hret
  · intro r hr hret
    rcases resize_cases calloc_ok a n r hr with h | ⟨ht, _⟩
    · rw [h]
    · rw [ht] at hret; cases hret

theorem failure_leaves_array_unchanged_witness :
    (∃ r, carray_create false sample_full [9] 3 = .ok r ∧ r.ret = false ∧
        r.errno = some ENOMEM ∧ r.array = sample_full) ∧
    (∃ r, carray_update sample_full [9] 16 = .ok r ∧ r.ret = false ∧ r.array = sample_full) ∧
    (∃ r, carray_delete sample_full 16 = .ok r ∧ r.ret = false ∧ r.array = sample_full) ∧
    (∃ r, carray_resize false sample_full 40 = .ok r ∧ r.ret = false ∧
        r.errno = some ENOMEM ∧ r.array = sample_full) := by
  have h := failure_leaves_array_unchanged false sample_full [9] 3 40
  have h2 := failure_leaves_array_unchanged false sample_full [9] 16 40
  exact ⟨⟨_, rfl, rfl, rfl, h.1 _ rfl rfl⟩, ⟨_, rfl, rfl, h2.2.1 _ rfl rfl⟩,
    ⟨_, rfl, rfl, h2.2.2.1 _ rfl rfl⟩, ⟨_, rfl, rfl, rfl, h.2.2.2 _ rfl rfl⟩⟩


/-- Copying the first `n` slots of `old` to the start of `fresh` succeeds when both
buffers hold them, and makes the first `n` slots of the result those of `old`. -/
theorem slot_copy_front (m n : Nat) (fresh old : List Byte) (ho : n * m ≤ old.length)
    (hf : n * m ≤ fresh.length) :
    ∃ out, memcpy fresh 0 old 0 (n * m) = .ok out ∧ out.length = fresh.length ∧
      ∀ k, k < n → slot m out k = slot m old k := by
  refine ⟨_, memcpy_ok _ _ _ _ _ (by omega) (by omega), ?_, ?_⟩
  · simp; omega
  · intro k hk
    apply List.ext_getElem?
    intro j
    rw [slot_getElem?, slot_getElem?]
    by_cases hj : j < m
    · have hle := mul_succ_le m hk
      have hlt : k * m + j < n * m := by omega
      have hlt2 : k * m + j < old.length := by omega
      simp [hj, List.getElem?_append, List.getElem?_take, hlt, hlt2]
    · simp [hj]

/-- C5: on a valid array with contents `s`, every successful `carray_resize(a, n)` yields
capacity `max n 16`, length `min n size`, the first `min n size` elements of `s` in
order, and the old element width; so the capacity is at least 16, and `n = 2` on
five elements gives length 2, capacity 16 and the first two elements.  The call
succeeds whenever the allocator grants a request that fits in `size_t`. -/
theorem carray_resize_result (calloc_ok : Bool) (a : CArray) (n : Nat) (hv : Valid a) :
    ((calloc_ok = true ∧ max n 16 * a.msize < 2 ^ 64) →
      ∃ r, carray_resize calloc_ok a n = .ok r ∧ r.ret = true) ∧
    ∀ r, carray_resize calloc_ok a n = .ok r → r.ret = true →
      r.array.capacity = max n 16 ∧ r.array.size = min n a.size ∧
      contents r.array = (contents a).take (min n a.size) ∧
      r.array.msize = a.msize ∧ 16 ≤ r.array.capacity ∧
      (a.size = 5 → n = 2 →
        r.array.size = 2 ∧ r.array.capacity = 16 ∧ contents r.array = (contents a).take 2) := by
  obtain ⟨hm, hsz, hlen, hmax⟩ := hv
  have hm1 : 1 ≤ a.msize := hm
  have hrc : (if n < CARRAY_CAPACITY_DEFAULT then CARRAY_CAPACITY_DEFAULT else n) = max n 16 := by
    unfold CARRAY_CAPACITY_DEFAULT
    split <;> omega
  have hrs : (if n < a.size then n else a.size) = min n a.size := by
    split <;> omega
  have hrsle : min n a.size * a.msize ≤ a.capacity * a.msize :=
    Nat.mul_le_mul_right _ (by omega)
  have hrsle2 : min n a.size * a.msize ≤ max n 16 * a.msize :=
    Nat.mul_le_mul_right _ (by omega)
  have hu : u64 (min n a.size * a.msize) = min n a.size * a.msize := u64_of_lt (by omega)
  constructor
  · rintro ⟨hok, hfit⟩
    obtain ⟨out, hcp, _, _⟩ := slot_copy_front a.msize (min n a.size)
      (List.replicate (max n 16 * a.msize) 0) a.elements (by omega) (by simp; omega)
    unfold carray_resize
    simp only [hrc, hrs, calloc, hok, hfit, and_self, if_true, hu, hcp]
    by_cases hpos : min n a.size > 0
    · rw [if_pos hpos]
      exact ⟨_, rfl, rfl⟩
    · rw [if_neg hpos]
      exact ⟨_, rfl, rfl⟩
  · intro r hr hret
    have key : r.array.capacity = max n 16 ∧ r.array.size = min n a.size ∧
        contents r.array = (contents a).take (min n a.size) ∧ r.array.msize = a.msize := by
      rcases resize_cases calloc_ok a n r hr with h | ⟨_, _, hms, hs, hc, fresh, hfr, hcp⟩
      · rw [h] at hret; cases hret
      · rw [hrc] at hc hfr
        rw [hrs] at hs hcp
        refine ⟨hc, hs, ?_, hms⟩
        have hfl : fresh.length = max n 16 * a.msize := by
          unfold calloc at hfr
          split at hfr
          · cases hfr; simp
          · cases hfr
        have hslots : ∀ k, k < min n a.size →
            slot a.msize r.array.elements k = slot a.msize a.elements k := by
          by_cases hpos : min n a.size > 0
          · rw [if_pos hpos, hu] at hcp
            obtain ⟨out, hcp2, _, hsl⟩ := slot_copy_front a.msize (min n a.size) fresh
              a.elements (by omega) (by omega)
            rw [hcp] at hcp2
            cases hcp2
            exact hsl
          · intro k hk
            omega
        apply List.ext_getElem?
        intro j
        rw [List.getElem?_take, contents_getElem?, contents_getElem?, hs, hms]
        by_cases hj : j < min n a.size
        · have h2 : j < a.size := by omega
          rw [if_pos hj, if_pos hj, if_pos h2, hslots j hj]
        · rw [if_neg hj, if_neg hj]
    refine ⟨key.1, key.2.1, key.2.2.1, key.2.2.2, by rw [key.1]; omega, ?_⟩
    intro h5 h2
    have hmin : min n a.size = 2 := by omega
    refine ⟨by rw [key.2.1, hmin], by rw [key.1, h2]; rfl, by rw [key.2.2.1, hmin]⟩

theorem carray_resize_result_witness :
    Valid sample_five ∧
      ∃ r, carray_resize true sample_five 2 = .ok r ∧ r.ret = true ∧ r.array.size = 2 ∧
        r.array.capacity = 16 ∧ contents r.array = [le32 1, le32 2] := by
  have h := carray_resize_result true sample_five 2 (by decide)
  obtain ⟨r, hr, hret⟩ := h.1 (by decide)
  obtain ⟨_, _, _, _, _, h5⟩ := h.2 r hr hret
  obtain ⟨hs, hc, hcont⟩ := h5 (by decide) rfl
  exact ⟨by decide, r, hr, hret, hs, hc, by rw [hcont]; decide⟩


/-- C7: on a valid array, for every index `i < size` and every element `e` of the width of
the array, `carray_update(a, e, i)` succeeds and a following `carray_read` at `i` into a
buffer of at least `msize` bytes succeeds and writes exactly the bytes of `e` (the
bytes of the buffer after the first `msize` are left as they were). -/
theorem carray_update_then_read (a : CArray) (e out : List Byte) (i : Nat) (hv : Valid a)
    (hi : i < a.size) (he : e.length = a.msize) (ho : a.msize ≤ out.length) :
    ∃ r, carray_update a e i = .ok r ∧ r.ret = true ∧
      ∃ r2, carray_read r.array out i = .ok r2 ∧ r2.ret = true ∧
        r2.out_ele = e ++ out.drop a.msize ∧ r2.out_ele.take a.msize = e := by
  obtain ⟨hm, hsz, hlen, hmax⟩ := hv
  have hle : i * a.msize + a.msize ≤ a.capacity * a.msize :=
    mul_succ_le a.msize (by omega : i < a.capacity)
  have hu : u64 (i * a.msize) = i * a.msize := u64_of_lt (by omega)
  obtain ⟨out1, h1, hl1, hs1⟩ := slot_memcpy a.msize a.elements e i 0 (by omega) (by omega)
  have hne : ¬ a.size = 0 := by omega
  have hnb : ¬ i ≥ a.size := by omega
  have hup : carray_update a e i =
      .ok { ret := true, errno := none, array := { a with elements := out1 } } := by
    unfold carray_update
    rw [if_neg hne, if_neg hnb, hu]
    simp only [bind, Except.bind, h1]
    rfl
  have hslot : slot a.msize out1 i = e := by
    rw [hs1 i, if_pos rfl, List.drop_zero, List.take_of_length_le (by omega)]
  have hrd : carray_read { a with elements := out1 } out i =
      .ok { ret := true, errno := none, array := { a with elements := out1 },
            out_ele := e ++ out.drop a.msize } := by
    unfold carray_read
    simp only
    rw [if_neg hne, if_neg hnb, hu, memcpy_ok _ _ _ _ _ (by omega) (by omega)]
    simp only [bind, Except.bind, pure, Except.pure, List.take_zero, List.nil_append,
      Nat.zero_add]
    have : List.take a.msize (List.drop (i * a.msize) out1) = e := hslot
    rw [this]
  refine ⟨_, hup, rfl, _, hrd, rfl, rfl, ?_⟩
  simp only
  rw [List.take_append_of_le_length (by omega), List.take_of_length_le (by omega)]

theorem carray_update_then_read_witness :
    Valid sample_five ∧ 3 < sample_five.size ∧
      ∃ r, carray_update sample_five (le32 77) 3 = .ok r ∧ r.ret = true ∧
        ∃ r2, carray_read r.array [0, 0, 0, 0] 3 = .ok r2 ∧ r2.ret = true ∧
          r2.out_ele = le32 77 := by
  obtain ⟨r, hr, hret, r2, hr2, hret2, hout, _⟩ :=
    carray_update_then_read sample_five (le32 77) [0, 0, 0, 0] 3 (by decide) (by decide)
      (by decide) (by decide)
  exact ⟨by decide, by decide, r, hr, hret, r2, hr2, hret2, by rw [hout]; decide⟩

/-- C8, as stated, fails: after `carray_create` of 10, 20, 30 at indices 0, 0, 1 on a
new array of width 4 the contents are not 20, 10, 30. -/
theorem create_three_not_20_10_30 :
    ¬ ((create_three (le32 10) (le32 20) (le32 30)).map
          (Except.map (fun r => contents r.array)) =
        some (.ok [le32 20, le32 10, le32 30])) := by
  decide

/-- C8, amended: starting from a new array of element width 4, `carray_create` with the
values 10, 20, 30 at indices 0, 0, 1 leaves the array holding,
in index order 0, 1, 2, the values 20, 30, 10. -/
theorem create_three_is_20_30_10 :
    (create_three (le32 10) (le32 20) (le32 30)).map
        (Except.map (fun r => (r.ret, contents r.array))) =
      some (.ok (true, [le32 20, le32 30, le32 10])) := by
  decide


/-- A successful `carray_create` on a valid array returns a valid array with one more
element, the same width, and a capacity doubled exactly when the array was full. -/
theorem create_success_spec (calloc_ok : Bool) (a : CArray) (e : List Byte) (at_ : Nat)
    (r : Outcome) (hv : Valid a) (hr : carray_create calloc_ok a e at_ = .ok r)
    (hret : r.ret = true) :
    Valid r.array ∧ r.array.size = a.size + 1 ∧ r.array.msize = a.msize ∧
      r.array.capacity = (if a.size = a.capacity then 2 * a.capacity else a.capacity) := by
  rcases create_cases calloc_ok a e at_ r hr with ⟨_, h⟩ | ⟨_, _, h⟩ | ⟨hat, g, hg, _, _, _, _, hel⟩
  · rw [h] at hret; cases hret
  · rw [h] at hret; cases hret
  · obtain ⟨hgm, hgs, hgc, hgl, hgmax, _⟩ := create_grow_spec calloc_ok a g hv hg
    have hog := create_of_grow calloc_ok a g e at_ hv (by omega) hat hg
    by_cases hlt : a.size < g.capacity
    · obtain ⟨out, hr2, hl, _⟩ := hog.1 hlt
      rw [hr] at hr2
      cases hr2
      have hm := hv.1
      refine ⟨⟨by simp only [hgm]; exact hm, by simp only; omega, by simp only; omega,
        by simp only; exact hgmax⟩, rfl, hgm, hgc⟩
    · rw [hog.2 hlt] at hr
      cases hr

/-- A new array is valid, empty and of the default capacity. -/
theorem new_spec (malloc_ok calloc_ok : Bool) (w : Nat) (a0 : CArray)
    (h : (carray_new malloc_ok calloc_ok w).2 = some a0) :
    Valid a0 ∧ a0.size = 0 ∧ a0.capacity = 16 ∧ a0.msize = w ∧
      a0.elements = List.replicate (16 * w) 0 := by
  unfold carray_new at h
  by_cases hw : w > CARRAY_MSIZE_MAX ∨ w < CARRAY_MSIZE_MIN
  · rw [if_pos hw] at h
    cases h
  · rw [if_neg hw] at h
    by_cases hmal : malloc_ok = false
    · rw [if_pos hmal] at h
      cases h
    · rw [if_neg hmal] at h
      unfold CARRAY_MSIZE_MAX CARRAY_MSIZE_MIN at hw
      have hfit : CARRAY_CAPACITY_DEFAULT * w < 2 ^ 64 := by
        unfold CARRAY_CAPACITY_DEFAULT; omega
      by_cases hok : calloc_ok = true
      · have hcal : calloc calloc_ok CARRAY_CAPACITY_DEFAULT w =
            some (List.replicate (CARRAY_CAPACITY_DEFAULT * w) 0) := by
          unfold calloc
          rw [if_pos ⟨hok, hfit⟩]
        rw [hcal] at h
        simp only [Option.some.injEq] at h
        subst h
        refine ⟨⟨?_, ?_, ?_, hfit⟩, rfl, rfl, rfl, rfl⟩
        · show CARRAY_MSIZE_MIN ≤ w
          unfold CARRAY_MSIZE_MIN; omega
        · show CARRAY_SIZE_DEFAULT ≤ CARRAY_CAPACITY_DEFAULT
          decide
        · show (List.replicate (CARRAY_CAPACITY_DEFAULT * w) (0 : Byte)).length =
            CARRAY_CAPACITY_DEFAULT * w
          simp
      · have hcal : calloc calloc_ok CARRAY_CAPACITY_DEFAULT w = none := by
          unfold calloc
          rw [if_neg (fun hh => hok hh.1)]
        rw [hcal] at h
        cases h

/-- Along a sequence of successful `carray_create` calls on a valid array the length
grows by one per call, and an array that has capacity 16 up to length 16 and capacity
32 at length 17 keeps that shape. -/
theorem create_all_spec (ops : List (Bool × List Byte × Nat)) :
    ∀ (a b : CArray), Valid a → (a.size ≤ 16 → a.capacity = 16) →
      (a.size = 17 → a.capacity = 32) → create_all a ops = .ok (some b) →
      Valid b ∧ b.size = a.size + ops.length ∧ (b.size ≤ 16 → b.capacity = 16) ∧
        (b.size = 17 → b.capacity = 32) := by
  induction ops with
  | nil =>
    intro a b hv h16 h17 h
    cases h
    exact ⟨hv, rfl, h16, h17⟩
  | cons op rest ih =>
    intro a b hv h16 h17 h
    obtain ⟨ok, e, at_⟩ := op
    unfold create_all at h
    cases hc : carray_create ok a e at_ with
    | error f => simp [bind, Except.bind, hc] at h
    | ok r =>
      simp only [bind, Except.bind, hc] at h
      by_cases hret : r.ret = true
      · rw [if_pos hret] at h
        obtain ⟨hv2, hs2, _, hc2⟩ := create_success_spec ok a e at_ r hv hc hret
        have hsz := hv.2.1
        obtain ⟨hvb, hsb, hb16, hb17⟩ := ih r.array b hv2
          (by
            intro hle
            have h1 := h16 (by omega)
            rw [hc2, if_neg (by omega), h1])
          (by
            intro h17b
            have h1 := h16 (by omega)
            rw [hc2, if_pos (by omega), h1])
          h
        exact ⟨hvb, by rw [hsb, hs2, List.length_cons]; omega, hb16, hb17⟩
      · rw [if_neg hret] at h
        cases h

/-- C9: a successful `carray_create` on a valid array makes the capacity exactly twice
its previous value when `size == capacity` before the call and leaves it unchanged
when `size < capacity`; so a new array (capacity 16) has capacity 16 after any
number up to 16 of successive successful inserts and capacity 32 after the 17th. -/
theorem carray_create_capacity :
    (∀ (calloc_ok : Bool) (a : CArray) (e : List Byte) (at_ : Nat) (r : Outcome), Valid a →
      carray_create calloc_ok a e at_ = .ok r → r.ret = true →
      (a.size = a.capacity → r.array.capacity = 2 * a.capacity) ∧
      (a.size < a.capacity → r.array.capacity = a.capacity)) ∧
    (∀ (malloc_ok calloc_ok : Bool) (w : Nat) (a0 b : CArray)
      (ops : List (Bool × List Byte × Nat)),
      (carray_new malloc_ok calloc_ok w).2 = some a0 → create_all a0 ops = .ok (some b) →
      b.size = ops.length ∧ (ops.length ≤ 16 → b.capacity = 16) ∧
      (ops.length = 17 → b.capacity = 32)) := by
  constructor
  · intro calloc_ok a e at_ r hv hr hret
    obtain ⟨_, _, _, hc⟩ := create_success_spec calloc_ok a e at_ r hv hr hret
    constructor
    · intro h; rw [hc, if_pos h]
    · intro h; rw [hc, if_neg (by omega)]
  · intro malloc_ok calloc_ok w a0 b ops hnew hall
    obtain ⟨hv, hs, hc, _⟩ := new_spec malloc_ok calloc_ok w a0 hnew
    obtain ⟨_, hsb, h16, h17⟩ := create_all_spec ops a0 b hv (fun _ => hc)
      (fun h => by omega) hall
    rw [hs, Nat.zero_add] at hsb
    exact ⟨hsb, fun h => h16 (by omega), fun h => h17 (by omega)⟩

theorem carray_create_capacity_witness :
    (∃ r, carray_create true sample_full [9] 16 = .ok r ∧ r.ret = true ∧
        r.array.capacity = 32) ∧
    (∃ r, carray_create true sample_five (le32 9) 5 = .ok r ∧ r.ret = true ∧
        r.array.capacity = 16) ∧
    (∃ a0 b, (carray_new true true 1).2 = some a0 ∧
        create_all a0 (seventeen_appends.take 16) = .ok (some b) ∧ b.capacity = 16) ∧
    (∃ a0 b, (carray_new true true 1).2 = some a0 ∧
        create_all a0 seventeen_appends = .ok (some b) ∧ b.size = 17 ∧ b.capacity = 32) := by
  have h := carray_create_capacity
  have e1 : carray_create true sample_full [9] 16 =
      .ok { ret := true, errno := none,
            array := { msize := 1, size := 17, capacity := 32,
                       elements := List.replicate 16 7 ++ [9] ++ List.replicate 15 0 } } := by
    decide
  have e2 : carray_create true sample_five (le32 9) 5 =
      .ok { ret := true, errno := none,
            array := { msize := 4, size := 6, capacity := 16,
                       elements := le32 1 ++ le32 2 ++ le32 3 ++ le32 4 ++ le32 5 ++ le32 9 ++
                         List.replicate 40 0 } } := by
    decide
  have e3 : create_all { msize := 1, size := 0, capacity := 16, elements := List.replicate 16 0 }
      (seventeen_appends.take 16) = .ok (some sample_full) := by decide
  have e4 : create_all { msize := 1, size := 0, capacity := 16, elements := List.replicate 16 0 }
      seventeen_appends =
      .ok (some { msize := 1, size := 17, capacity := 32,
                  elements := List.replicate 17 7 ++ List.replicate 15 0 }) := by decide
  exact ⟨⟨_, e1, rfl, (h.1 true sample_full [9] 16 _ (by decide) e1 rfl).1 (by decide)⟩,
    ⟨_, e2, rfl, (h.1 true sample_five (le32 9) 5 _ (by decide) e2 rfl).2 (by decide)⟩,
    ⟨_, _, rfl, e3, (h.2 true true 1 _ _ _ rfl e3).2.1 (by decide)⟩,
    ⟨_, _, rfl, e4, (h.2 true true 1 _ _ _ rfl e4).1, (h.2 true true 1 _ _ _ rfl e4).2.2
      (by decide)⟩⟩


/-- The scan of `carray_search` from index `i` on a valid array ends within `size`
iterations; it yields `some k` exactly for the first index `k ≥ i` whose slot
satisfies the predicate and `none` exactly when no such index exists. -/
theorem search_loop_spec (a : CArray) (t : List Byte) (equals : List Byte → List Byte → Bool)
    (hv : Valid a) :
    ∀ (fuel i : Nat), a.size ≤ i + fuel → i ≤ a.size →
      ∃ res, carray_search_loop a t equals fuel i = .ok res ∧
        (∀ k, res = some k ↔
          (i ≤ k ∧ k < a.size ∧ equals (slot a.msize a.elements k) t = true ∧
            ∀ j, i ≤ j → j < k → equals (slot a.msize a.elements j) t = false)) ∧
        (res = none ↔
          ∀ j, i ≤ j → j < a.size → equals (slot a.msize a.elements j) t = false) := by
  obtain ⟨hm, hsz, hlen, hmax⟩ := hv
  have hm1 : 1 ≤ a.msize := hm
  have hc1 : a.capacity ≤ a.capacity * a.msize := Nat.le_mul_of_pos_right _ hm1
  intro fuel
  induction fuel with
  | zero =>
    intro i hf hi
    have hni : ¬ i < a.size := by omega
    refine ⟨none, by unfold carray_search_loop; rw [if_neg hni]; rfl, ?_, ?_⟩
    · intro k
      constructor
      · intro h; cases h
      · rintro ⟨h1, h2, _⟩; omega
    · constructor
      · intro _ j h1 h2; omega
      · intro _; rfl
  | succ fuel ih =>
    intro i hf hi
    by_cases hlt : i < a.size
    · have hle : i * a.msize + a.msize ≤ a.capacity * a.msize :=
        mul_succ_le a.msize (by omega : i < a.capacity)
      have hu : u64 (i * a.msize) = i * a.msize := u64_of_lt (by omega)
      have hu2 : u64 (i + 1) = i + 1 := u64_of_lt (by omega)
      have hload : load a.elements (u64 (i * a.msize)) a.msize =
          .ok (slot a.msize a.elements i) := by
        unfold load
        rw [hu, if_pos (by omega)]
        rfl
      by_cases heq : equals (slot a.msize a.elements i) t = true
      · refine ⟨some i, ?_, ?_, ?_⟩
        · unfold carray_search_loop
          rw [if_pos hlt, hload]
          simp only [bind, Except.bind]
          rw [if_pos heq]
          rfl
        · intro k
          constructor
          · intro h
            cases h
            exact ⟨le_refl _, hlt, heq, fun j h1 h2 => by omega⟩
          · rintro ⟨h1, h2, h3, h4⟩
            by_cases hk : k = i
            · rw [hk]
            · have := h4 i (le_refl _) (by omega)
              rw [heq] at this
              cases this
        · constructor
          · intro h; cases h
          · intro h
            have := h i (le_refl _) hlt
            rw [heq] at this
            cases this
      · obtain ⟨res, hres, hsome, hnone⟩ := ih (i + 1) (by omega) (by omega)
        have heqf : equals (slot a.msize a.elements i) t = false := by
          cases hb : equals (slot a.msize a.elements i) t
          · rfl
          · exact absurd hb heq
        refine ⟨res, ?_, ?_, ?_⟩
        · unfold carray_search_loop
          rw [if_pos hlt, hload]
          simp only [bind, Except.bind]
          rw [if_neg heq, hu2]
          exact hres
        · intro k
          rw [hsome k]
          constructor
          · rintro ⟨h1, h2, h3, h4⟩
            refine ⟨by omega, h2, h3, ?_⟩
            intro j hj1 hj2
            by_cases hji : j = i
            · rw [hji]; exact heqf
            · exact h4 j (by omega) hj2
          · rintro ⟨h1, h2, h3, h4⟩
            have hki : k ≠ i := by
              intro hki
              rw [hki, heqf] at h3
              cases h3
            exact ⟨by omega, h2, h3, fun j hj1 hj2 => h4 j (by omega) hj2⟩
        · rw [hnone]
          constructor
          · intro h j hj1 hj2
            by_cases hji : j = i
            · rw [hji]; exact heqf
            · exact h j (by omega) hj2
          · intro h j hj1 hj2
            exact h j (by omega) hj2
    · refine ⟨none, by unfold carray_search_loop; rw [if_neg hlt]; rfl, ?_, ?_⟩
      · intro k
        constructor
        · intro h; cases h
        · rintro ⟨h1, h2, _⟩; omega
      · constructor
        · intro _ j h1 h2; omega
        · intro _; rfl

/-- On a valid array `carray_search` returns: with `EEMPTY` on an empty array, and
otherwise with the outcome of the scan from index 0. -/
theorem search_spec (a : CArray) (t : List Byte) (equals : List Byte → List Byte → Bool)
    (hv : Valid a) :
    (a.size = 0 ∧ carray_search a t equals =
        .ok { ret := false, errno := some EEMPTY, array := a, found_at := none }) ∨
    (a.size ≠ 0 ∧ ∃ k, carray_search a t equals =
        .ok { ret := true, errno := none, array := a, found_at := some k } ∧
      k < a.size ∧ equals (slot a.msize a.elements k) t = true ∧
      ∀ j, j < k → equals (slot a.msize a.elements j) t = false) ∨
    (a.size ≠ 0 ∧ carray_search a t equals =
        .ok { ret := false, errno := some ENOTFOUND, array := a, found_at := none } ∧
      ∀ j, j < a.size → equals (slot a.msize a.elements j) t = false) := by
  by_cases h0 : a.size = 0
  · left
    exact ⟨h0, by unfold carray_search; rw [if_pos h0]; rfl⟩
  · right
    obtain ⟨res, hres, hsome, hnone⟩ :=
      search_loop_spec a t equals hv a.size 0 (by omega) (by omega)
    cases res with
    | none =>
      right
      refine ⟨h0, ?_, fun j hj => hnone.mp rfl j (by omega) hj⟩
      unfold carray_search
      rw [if_neg h0]
      simp only [bind, Except.bind, hres]
      rfl
    | some k =>
      left
      obtain ⟨_, h2, h3, h4⟩ := (hsome k).mp rfl
      refine ⟨h0, k, ?_, h2, h3, fun j hj => h4 j (by omega) hj⟩
      unfold carray_search
      rw [if_neg h0]
      simp only [bind, Except.bind, hres]
      rfl

/-- C10: on a valid array, for every target and predicate, `carray_search` returns, and
it fails with `EEMPTY` iff `size == 0`; on a non-empty array it succeeds with found
index `i` iff slot `i < size` satisfies the predicate and no slot `j < i` does, and
it fails with `ENOTFOUND` iff no slot `i < size` satisfies the predicate; the array
is not modified. -/
theorem carray_search_first_match (a : CArray) (t : List Byte)
    (equals : List Byte → List Byte → Bool) (hv : Valid a) :
    (∃ r, carray_search a t equals = .ok r) ∧
    ((∃ r, carray_search a t equals = .ok r ∧ r.ret = false ∧ r.errno = some EEMPTY) ↔
        a.size = 0) ∧
    (a.size ≠ 0 →
      (∀ i, (∃ r, carray_search a t equals = .ok r ∧ r.ret = true ∧ r.found_at = some i) ↔
        (i < a.size ∧ equals (slot a.msize a.elements i) t = true ∧
          ∀ j, j < i → equals (slot a.msize a.elements j) t = false)) ∧
      ((∃ r, carray_search a t equals = .ok r ∧ r.ret = false ∧ r.errno = some ENOTFOUND) ↔
        ∀ i, i < a.size → equals (slot a.msize a.elements i) t = false)) ∧
    (∀ r, carray_search a t equals = .ok r → r.array = a) := by
  have hne : ENOTFOUND ≠ EEMPTY := by decide
  rcases search_spec a t equals hv with ⟨h0, hr⟩ | ⟨h0, k, hr, hk1, hk2, hk3⟩ | ⟨h0, hr, hall⟩
  · refine ⟨⟨_, hr⟩, ⟨fun _ => h0, fun _ => ⟨_, hr, rfl, rfl⟩⟩, fun h => absurd h0 h, ?_⟩
    intro r h
    rw [hr] at h
    cases h
    rfl
  · refine ⟨⟨_, hr⟩, ⟨?_, fun h => absurd h h0⟩, fun _ => ⟨?_, ?_⟩, ?_⟩
    · rintro ⟨r, h, hret, _⟩
      rw [hr] at h
      cases h
      cases hret
    · intro i
      constructor
      · rintro ⟨r, h, _, hf⟩
        rw [hr] at h
        cases h
        cases hf
        exact ⟨hk1, hk2, hk3⟩
      · rintro ⟨hi1, hi2, hi3⟩
        have hik : i = k := by
          rcases Nat.lt_trichotomy i k with hlt | heq | hgt
          · have := hk3 i hlt
            rw [hi2] at this
            cases this
          · exact heq
          · have := hi3 k hgt
            rw [hk2] at this
            cases this
        exact ⟨_, hr, rfl, by rw [hik]⟩
    · constructor
      · rintro ⟨r, h, hret, _⟩
        rw [hr] at h
        cases h
        cases hret
      · intro h
        have := h k hk1
        rw [hk2] at this
        cases this
    · intro r h
      rw [hr] at h
      cases h
      rfl
  · refine ⟨⟨_, hr⟩, ⟨?_, fun h => absurd h h0⟩, fun _ => ⟨?_, ?_⟩, ?_⟩
    · rintro ⟨r, h, _, he⟩
      rw [hr] at h
      cases h
      simp at he
      exact absurd he hne
    · intro i
      constructor
      · rintro ⟨r, h, hret, _⟩
        rw [hr] at h
        cases h
        cases hret
      · rintro ⟨hi1, hi2, _⟩
        have := hall i hi1
        rw [hi2] at this
        cases this
    · exact ⟨fun _ => hall, fun _ => ⟨_, hr, rfl, rfl⟩⟩
    · intro r h
      rw [hr] at h
      cases h
      rfl

theorem carray_search_first_match_witness :
    Valid sample_full ∧
      ∃ r, carray_search sample_full [7] (fun x y => x == y) = .ok r ∧ r.ret = true ∧
        r.found_at = some 0 ∧ r.array = sample_full := by
  have h := carray_search_first_match sample_full [7] (fun x y => x == y) (by decide)
  obtain ⟨r, hr, hret, hf⟩ := ((h.2.2.1 (by decide)).1 0).mpr
    ⟨by decide, by decide, fun j hj => absurd hj (Nat.not_lt_zero j)⟩
  exact ⟨by decide, r, hr, hret, hf, h.2.2.2 r hr⟩


/-! ## `carray_equals` and `carray_new`: return paths -/

theorem equals_cases (a1 a2 : CArray) (equals : List Byte → List Byte → Bool)
    (r : EqualsOutcome) (h : carray_equals a1 a2 equals = .ok r) :
    (a1.msize ≠ a2.msize ∧ r = { ret := false, errno := some EMSIZE }) ∨
    (a1.msize = a2.msize ∧ (a1.size = 0 ∨ a2.size = 0) ∧
      r = { ret := false, errno := some EEMPTY }) ∨
    (a1.msize = a2.msize ∧ ¬ (a1.size = 0 ∨ a2.size = 0) ∧ a1.size ≠ a2.size ∧
      r = { ret := false, errno := some ESIZENE }) ∨
    (a1.msize = a2.msize ∧ ¬ (a1.size = 0 ∨ a2.size = 0) ∧ a1.size = a2.size ∧
      r.errno = none) := by
  unfold carray_equals at h
  by_cases hm : a1.msize ≠ a2.msize
  · rw [if_pos hm] at h
    cases h
    exact Or.inl ⟨hm, rfl⟩
  · rw [if_neg hm] at h
    have hm2 : a1.msize = a2.msize := not_not.mp hm
    by_cases he : a1.size = 0 ∨ a2.size = 0
    · rw [if_pos he] at h
      cases h
      exact Or.inr (Or.inl ⟨hm2, he, rfl⟩)
    · rw [if_neg he] at h
      by_cases hs : a1.size ≠ a2.size
      · rw [if_pos hs] at h
        cases h
        exact Or.inr (Or.inr (Or.inl ⟨hm2, he, hs, rfl⟩))
      · rw [if_neg hs] at h
        refine Or.inr (Or.inr (Or.inr ⟨hm2, he, not_not.mp hs, ?_⟩))
        cases hl : carray_equals_loop a1 a2 equals a1.size 0 with
        | error f => simp [bind, Except.bind, hl] at h
        | ok res =>
          simp only [bind, Except.bind, hl] at h
          cases res <;> (cases h; rfl)

/-- The loop of `carray_equals` on two valid arrays of the same width and length ends
within `size` iterations, and it either leaves the loop or returns true. -/
theorem equals_loop_spec (a1 a2 : CArray) (equals : List Byte → List Byte → Bool)
    (hv1 : Valid a1) (hv2 : Valid a2) (hs : a1.size = a2.size) :
    ∀ (fuel i : Nat), a1.size ≤ i + fuel → i ≤ a1.size →
      ∃ res, carray_equals_loop a1 a2 equals fuel i = .ok res ∧
        (res = none ∨ res = some true) := by
  obtain ⟨hm1, hsz1, hlen1, hmax1⟩ := hv1
  obtain ⟨hm2, hsz2, hlen2, hmax2⟩ := hv2
  have hm1b : 1 ≤ a1.msize := hm1
  have hc1 : a1.capacity ≤ a1.capacity * a1.msize := Nat.le_mul_of_pos_right _ hm1b
  intro fuel
  induction fuel with
  | zero =>
    intro i hf hi
    have hni : ¬ i < a1.size := by omega
    exact ⟨none, by unfold carray_equals_loop; rw [if_neg hni]; rfl, Or.inl rfl⟩
  | succ fuel ih =>
    intro i hf hi
    by_cases hlt : i < a1.size
    · have hle1 : i * a1.msize + a1.msize ≤ a1.capacity * a1.msize :=
        mul_succ_le a1.msize (by omega : i < a1.capacity)
      have hle2 : i * a2.msize + a2.msize ≤ a2.capacity * a2.msize :=
        mul_succ_le a2.msize (by omega : i < a2.capacity)
      have hu1 : u64 (i * a1.msize) = i * a1.msize := u64_of_lt (by omega)
      have hu2 : u64 (i * a2.msize) = i * a2.msize := u64_of_lt (by omega)
      have hu3 : u64 (i + 1) = i + 1 := u64_of_lt (by omega)
      have hl1 : load a1.elements (u64 (i * a1.msize)) a1.msize =
          .ok (slot a1.msize a1.elements i) := by
        unfold load
        rw [hu1, if_pos (by omega)]
        rfl
      have hl2 : load a2.elements (u64 (i * a2.msize)) a2.msize =
          .ok (slot a2.msize a2.elements i) := by
        unfold load
        rw [hu2, if_pos (by omega)]
        rfl
      by_cases heq : equals (slot a1.msize a1.elements i) (slot a2.msize a2.elements i) = false
      · refine ⟨some true, ?_, Or.inr rfl⟩
        unfold carray_equals_loop
        rw [if_pos hlt, hl1, hl2]
        simp only [bind, Except.bind]
        rw [if_pos heq]
        rfl
      · obtain ⟨res, hres, hr⟩ := ih (i + 1) (by omega) (by omega)
        refine ⟨res, ?_, hr⟩
        unfold carray_equals_loop
        rw [if_pos hlt, hl1, hl2]
        simp only [bind, Except.bind]
        rw [if_neg heq, hu3]
        exact hres
    · exact ⟨none, by unfold carray_equals_loop; rw [if_neg hlt]; rfl, Or.inl rfl⟩

/-! ## Claims on `carray_equals` and `carray_new` -/

/-- C11: for every pair of arrays and every predicate, `carray_equals` returns false with
`EMSIZE` exactly when the element widths differ; otherwise it returns false with
`EEMPTY` exactly when either array has length 0; otherwise it returns false with
`ESIZENE` exactly when the lengths differ.  So whenever one of the arrays is empty the
call returns false, also when an empty array is compared with itself. -/
theorem carray_equals_errors (a1 a2 : CArray) (equals : List Byte → List Byte → Bool) :
    ((∃ r, carray_equals a1 a2 equals = .ok r ∧ r.ret = false ∧ r.errno = some EMSIZE) ↔
        a1.msize ≠ a2.msize) ∧
    (a1.msize = a2.msize →
      ((∃ r, carray_equals a1 a2 equals = .ok r ∧ r.ret = false ∧ r.errno = some EEMPTY) ↔
        (a1.size = 0 ∨ a2.size = 0))) ∧
    (a1.msize = a2.msize → ¬ (a1.size = 0 ∨ a2.size = 0) →
      ((∃ r, carray_equals a1 a2 equals = .ok r ∧ r.ret = false ∧ r.errno = some ESIZENE) ↔
        a1.size ≠ a2.size)) ∧
    ((a1.size = 0 ∨ a2.size = 0) →
      ∃ r, carray_equals a1 a2 equals = .ok r ∧ r.ret = false) ∧
    (a1.size = 0 → ∃ r, carray_equals a1 a1 equals = .ok r ∧ r.ret = false ∧
      r.errno = some EEMPTY) := by
  have hn1 : EEMPTY ≠ EMSIZE := by decide
  have hn2 : ESIZENE ≠ EMSIZE := by decide
  have hn3 : ESIZENE ≠ EEMPTY := by decide
  refine ⟨⟨?_, ?_⟩, ?_, ?_, ?_, ?_⟩
  · rintro ⟨r, hr, _, he⟩
    rcases equals_cases a1 a2 equals r hr with ⟨h, _⟩ | ⟨_, _, h⟩ | ⟨_, _, _, h⟩ | ⟨_, _, _, h⟩
    · exact h
    · rw [h] at he; simp at he; exact absurd he hn1
    · rw [h] at he; simp at he; exact absurd he hn2
    · rw [h] at he; cases he
  · intro hm
    exact ⟨_, by unfold carray_equals; rw [if_pos hm]; rfl, rfl, rfl⟩
  · intro hm
    have hnm : ¬ a1.msize ≠ a2.msize := not_not.mpr hm
    constructor
    · rintro ⟨r, hr, _, he⟩
      rcases equals_cases a1 a2 equals r hr with ⟨h, _⟩ | ⟨_, h, _⟩ | ⟨_, _, _, h⟩ | ⟨_, _, _, h⟩
      · exact absurd hm h
      · exact h
      · rw [h] at he; simp at he; exact absurd he hn3
      · rw [h] at he; cases he
    · intro hem
      exact ⟨_, by unfold carray_equals; rw [if_neg hnm, if_pos hem]; rfl, rfl, rfl⟩
  · intro hm hne
    have hnm : ¬ a1.msize ≠ a2.msize := not_not.mpr hm
    constructor
    · rintro ⟨r, hr, _, he⟩
      rcases equals_cases a1 a2 equals r hr with ⟨h, _⟩ | ⟨_, h, _⟩ | ⟨_, _, h, _⟩ | ⟨_, _, _, h⟩
      · exact absurd hm h
      · exact absurd h hne
      · exact h
      · rw [h] at he; cases he
    · intro hs
      exact ⟨_, by unfold carray_equals; rw [if_neg hnm, if_neg hne, if_pos hs]; rfl, rfl, rfl⟩
  · intro hem
    by_cases hm : a1.msize ≠ a2.msize
    · exact ⟨_, by unfold carray_equals; rw [if_pos hm]; rfl, rfl⟩
    · exact ⟨_, by unfold carray_equals; rw [if_neg hm, if_pos hem]; rfl, rfl⟩
  · intro h0
    have hnm : ¬ a1.msize ≠ a1.msize := fun h => h rfl
    exact ⟨_, by unfold carray_equals; rw [if_neg hnm, if_pos (Or.inl h0)]; rfl, rfl, rfl⟩

theorem carray_equals_errors_witness :
    (∃ r, carray_equals sample_five sample_full (fun x y => x == y) = .ok r ∧ r.ret = false ∧
        r.errno = some EMSIZE) ∧
    (∃ r, carray_equals sample_empty sample_empty (fun x y => x == y) = .ok r ∧
        r.ret = false ∧ r.errno = some EEMPTY) ∧
    (∃ r, carray_equals sample_five sample_three_wide (fun x y => x == y) = .ok r ∧
        r.ret = false ∧ r.errno = some ESIZENE) := by
  have h1 := carray_equals_errors sample_five sample_full (fun x y => x == y)
  have h2 := carray_equals_errors sample_empty sample_empty (fun x y => x == y)
  have h3 := carray_equals_errors sample_five sample_three_wide (fun x y => x == y)
  exact ⟨h1.1.mpr (by decide), h2.2.2.2.2 (by decide),
    (h3.2.2.1 (by decide) (by decide)).mpr (by decide)⟩

/-- C12: `carray_new(w)` fails with `EMSIZE` if and only if `w == 0` or `w > 4095`; for
`1 <= w <= 4095`, when both allocations are granted, it returns an array of element
width `w`, length 0 and capacity 16 whose buffer is `16 * w` zero bytes, and every
array it returns has that shape. -/
theorem carray_new_result (malloc_ok calloc_ok : Bool) (w : Nat) :
    (carray_new malloc_ok calloc_ok w = (some EMSIZE, none) ↔ (w = 0 ∨ w > 4095)) ∧
    (1 ≤ w → w ≤ 4095 → malloc_ok = true → calloc_ok = true →
      ∃ a, carray_new malloc_ok calloc_ok w = (none, some a) ∧ a.msize = w ∧ a.size = 0 ∧
        a.capacity = 16 ∧ a.elements.length = 16 * w ∧ ∀ b ∈ a.elements, b = 0) ∧
    (∀ a, (carray_new malloc_ok calloc_ok w).2 = some a →
      1 ≤ w ∧ w ≤ 4095 ∧ a.msize = w ∧ a.size = 0 ∧ a.capacity = 16 ∧
        a.elements = List.replicate (16 * w) 0) := by
  have hne : ENOMEM ≠ EMSIZE := by decide
  refine ⟨⟨?_, ?_⟩, ?_, ?_⟩
  · intro h
    by_contra hw
    have hw2 : ¬ (w > CARRAY_MSIZE_MAX ∨ w < CARRAY_MSIZE_MIN) := by
      unfold CARRAY_MSIZE_MAX CARRAY_MSIZE_MIN; omega
    unfold carray_new at h
    rw [if_neg hw2] at h
    by_cases hmal : malloc_ok = false
    · rw [if_pos hmal] at h
      simp only [Prod.mk.injEq, Option.some.injEq] at h
      exact hne h.1
    · rw [if_neg hmal] at h
      cases hc : calloc calloc_ok CARRAY_CAPACITY_DEFAULT w with
      | none =>
        rw [hc] at h
        simp only [Prod.mk.injEq, Option.some.injEq] at h
        exact hne h.1
      | some el =>
        rw [hc] at h
        simp at h
  · intro hw
    have hw2 : w > CARRAY_MSIZE_MAX ∨ w < CARRAY_MSIZE_MIN := by
      unfold CARRAY_MSIZE_MAX CARRAY_MSIZE_MIN; omega
    unfold carray_new
    rw [if_pos hw2]
  · intro h1 h2 hmal hcal
    have hw2 : ¬ (w > CARRAY_MSIZE_MAX ∨ w < CARRAY_MSIZE_MIN) := by
      unfold CARRAY_MSIZE_MAX CARRAY_MSIZE_MIN; omega
    have hfit : CARRAY_CAPACITY_DEFAULT * w < 2 ^ 64 := by
      unfold CARRAY_CAPACITY_DEFAULT; omega
    have hc : calloc calloc_ok CARRAY_CAPACITY_DEFAULT w =
        some (List.replicate (CARRAY_CAPACITY_DEFAULT * w) 0) := by
      unfold calloc
      rw [if_pos ⟨hcal, hfit⟩]
    refine ⟨{ msize := w, size := CARRAY_SIZE_DEFAULT, capacity := CARRAY_CAPACITY_DEFAULT,
              elements := List.replicate (CARRAY_CAPACITY_DEFAULT * w) 0 }, ?_, rfl, rfl, rfl,
      ?_, ?_⟩
    · unfold carray_new
      rw [if_neg hw2, if_neg (by rw [hmal]; decide), hc]
    · simp [CARRAY_CAPACITY_DEFAULT]
    · intro b hb
      exact List.eq_of_mem_replicate hb
  · intro a ha
    obtain ⟨_, hs, hc, hm, hel⟩ := new_spec malloc_ok calloc_ok w a ha
    have hw : 1 ≤ w ∧ w ≤ 4095 := by
      by_contra hw
      have hw2 : w > CARRAY_MSIZE_MAX ∨ w < CARRAY_MSIZE_MIN := by
        unfold CARRAY_MSIZE_MAX CARRAY_MSIZE_MIN; omega
      unfold carray_new at ha
      rw [if_pos hw2] at ha
      cases ha
    exact ⟨hw.1, hw.2, hm, hs, hc, hel⟩

theorem carray_new_result_witness :
    (carray_new true true 0 = (some EMSIZE, none)) ∧
    (carray_new true true 4096 = (some EMSIZE, none)) ∧
    (∃ a, carray_new true true 4 = (none, some a) ∧ a = sample_empty) := by
  have h0 := carray_new_result true true 0
  have h1 := carray_new_result true true 4096
  have h4 := carray_new_result true true 4
  obtain ⟨a, ha, _⟩ := h4.2.1 (by decide) (by decide) rfl rfl
  obtain ⟨_, _, hm, hs, hc, hel⟩ := h4.2.2 a (by rw [ha])
  refine ⟨h0.1.mpr (by decide), h1.1.mpr (by decide), a, ha, ?_⟩
  cases a
  simp only at hm hs hc hel
  subst hm hs hc hel
  rfl

/-- C16: for every pair of valid arrays of equal element width, both non-empty and of equal
length, and for every predicate, `carray_equals` returns true: a pair of slots that the
predicate reports as different ends the loop with `return true`. -/
theorem carray_equals_always_true (a1 a2 : CArray) (equals : List Byte → List Byte → Bool)
    (hv1 : Valid a1) (hv2 : Valid a2) (hm : a1.msize = a2.msize) (h1 : a1.size ≠ 0)
    (h2 : a2.size ≠ 0) (hs : a1.size = a2.size) :
    carray_equals a1 a2 equals = .ok { ret := true, errno := none } := by
  obtain ⟨res, hres, hr⟩ :=
    equals_loop_spec a1 a2 equals hv1 hv2 hs a1.size 0 (by omega) (by omega)
  unfold carray_equals
  rw [if_neg (not_not.mpr hm), if_neg (not_or.mpr ⟨h1, h2⟩), if_neg (not_not.mpr hs)]
  simp only [bind, Except.bind, hres]
  rcases hr with h | h <;> (rw [h]; rfl)

theorem carray_equals_always_true_witness :
    Valid sample_five ∧ Valid sample_five_reversed ∧
      carray_equals sample_five sample_five_reversed (fun x y => x == y) =
        .ok { ret := true, errno := none } ∧
      contents sample_five ≠ contents sample_five_reversed := by
  exact ⟨by decide, by decide,
    carray_equals_always_true sample_five sample_five_reversed (fun x y => x == y)
      (by decide) (by decide) (by decide) (by decide) (by decide) (by decide), by decide⟩


/-! ## Successful calls on a valid array -/

/-- The slots of the array after a successful `carray_create` on a valid array: below
`at` they are the old ones, slot `at` holds the first `msize` bytes of the element, and
each slot above `at` holds the old slot before it. -/
theorem create_slots_spec (calloc_ok : Bool) (a : CArray) (e : List Byte) (at_ : Nat)
    (r : Outcome) (hv : Valid a) (hr : carray_create calloc_ok a e at_ = .ok r)
    (hret : r.ret = true) :
    at_ ≤ a.size ∧ a.msize ≤ e.length ∧
      ∀ k, k ≤ a.size → slot r.array.msize r.array.elements k =
        if k < at_ then slot a.msize a.elements k
        else if k = at_ then e.take a.msize
        else slot a.msize a.elements (k - 1) := by
  rcases create_cases calloc_ok a e at_ r hr with ⟨_, h⟩ | ⟨_, _, h⟩ | ⟨hat, g, hg, _, _, _, _, hel⟩
  · rw [h] at hret; cases hret
  · rw [h] at hret; cases hret
  · obtain ⟨hgm, hgs, hgc, hgl, hgmax, hgsl⟩ := create_grow_spec calloc_ok a g hv hg
    have hel2 : a.msize ≤ e.length := by omega
    have hog := create_of_grow calloc_ok a g e at_ hv hel2 hat hg
    have hgsl2 : ∀ k, k < a.size → slot a.msize g.elements k = slot a.msize a.elements k := by
      intro k hk
      have := hgsl k hk
      rwa [hgm] at this
    by_cases hlt : a.size < g.capacity
    · obtain ⟨out, hr2, _, hs⟩ := hog.1 hlt
      rw [hr] at hr2
      cases hr2
      refine ⟨hat, hel2, ?_⟩
      intro k hk
      simp only [hgm]
      rw [hs k]
      by_cases hk1 : k < at_
      · have h3 : k ≠ at_ := by omega
        have h4 : ¬ (at_ < k ∧ k ≤ a.size) := by omega
        rw [if_neg h3, if_neg h4, if_pos hk1, hgsl2 k (by omega)]
      · by_cases hk2 : k = at_
        · rw [if_pos hk2, if_neg hk1, if_pos hk2]
        · have h4 : at_ < k ∧ k ≤ a.size := by omega
          rw [if_neg hk2, if_pos h4, if_neg hk1, if_neg hk2, hgsl2 _ (by omega)]
    · rw [hog.2 hlt] at hr
      cases hr

/-- The contents after a successful `carray_create` on a valid array. -/
theorem create_contents_spec (calloc_ok : Bool) (a : CArray) (e : List Byte) (at_ : Nat)
    (r : Outcome) (hv : Valid a) (hr : carray_create calloc_ok a e at_ = .ok r)
    (hret : r.ret = true) :
    contents r.array = (contents a).take at_ ++ [e.take a.msize] ++ (contents a).drop at_ := by
  obtain ⟨hat, _, hs⟩ := create_slots_spec calloc_ok a e at_ r hv hr hret
  obtain ⟨_, hsz, _, _⟩ := create_success_spec calloc_ok a e at_ r hv hr hret
  apply List.ext_getElem?
  intro j
  rw [insert_getElem? _ _ _ (by rw [contents_length]; exact hat), contents_getElem?,
    contents_getElem?, contents_getElem?, hsz]
  by_cases hj : j < a.size + 1
  · rw [if_pos hj, hs j (by omega)]
    by_cases hj1 : j < at_
    · rw [if_pos hj1, if_pos hj1, if_pos (by omega)]
    · by_cases hj2 : j = at_
      · rw [if_neg hj1, if_pos hj2, if_neg hj1, if_pos hj2]
      · rw [if_neg hj1, if_neg hj2, if_neg hj1, if_neg hj2, if_pos (by omega)]
  · have h1 : ¬ j < at_ := by omega
    have h2 : ¬ j = at_ := by omega
    have h3 : ¬ j - 1 < a.size := by omega
    rw [if_neg hj, if_neg h1, if_neg h2, if_neg h3]

/-- On a valid array `carray_read` at an index below the length into a buffer of at least
`msize` bytes returns true and stores the bytes of the slot. -/
theorem read_spec (a : CArray) (out : List Byte) (i : Nat) (hv : Valid a) (hi : i < a.size)
    (ho : a.msize ≤ out.length) :
    carray_read a out i =
      .ok { ret := true, errno := none, array := a,
            out_ele := slot a.msize a.elements i ++ out.drop a.msize } := by
  obtain ⟨hm, hsz, hlen, hmax⟩ := hv
  have hle : i * a.msize + a.msize ≤ a.capacity * a.msize :=
    mul_succ_le a.msize (by omega : i < a.capacity)
  have hu : u64 (i * a.msize) = i * a.msize := u64_of_lt (by omega)
  unfold carray_read
  rw [if_neg (by omega), if_neg (by omega), hu, memcpy_ok _ _ _ _ _ (by omega) (by omega)]
  simp only [bind, Except.bind, pure, Except.pure, List.take_zero, List.nil_append,
    Nat.zero_add]
  rfl

/-- On a valid array `carray_update` at an index below the length with an element of at
least `msize` bytes returns true; it replaces that slot and no other. -/
theorem update_spec (a : CArray) (e : List Byte) (at_ : Nat) (hv : Valid a)
    (hat : at_ < a.size) (he : a.msize ≤ e.length) :
    ∃ out, carray_update a e at_ =
        .ok { ret := true, errno := none, array := { a with elements := out } } ∧
      out.length = a.elements.length ∧
      ∀ k, slot a.msize out k = if k = at_ then e.take a.msize else slot a.msize a.elements k := by
  obtain ⟨hm, hsz, hlen, hmax⟩ := hv
  have hle : at_ * a.msize + a.msize ≤ a.capacity * a.msize :=
    mul_succ_le a.msize (by omega : at_ < a.capacity)
  have hu : u64 (at_ * a.msize) = at_ * a.msize := u64_of_lt (by omega)
  obtain ⟨out1, h1, hl1, hs1⟩ := slot_memcpy a.msize a.elements e at_ 0 (by omega) (by omega)
  refine ⟨out1, ?_, hl1, hs1⟩
  unfold carray_update
  rw [if_neg (by omega), if_neg (by omega), hu]
  simp only [bind, Except.bind, h1]
  rfl

/-- A successful `carray_update` needs `msize` bytes of element. -/
theorem update_needs_element (a : CArray) (e : List Byte) (at_ : Nat) (r : Outcome)
    (hr : carray_update a e at_ = .ok r) (hret : r.ret = true) : a.msize ≤ e.length := by
  unfold carray_update at hr
  by_cases h0 : a.size = 0
  · rw [if_pos h0] at hr; cases hr; cases hret
  · rw [if_neg h0] at hr
    by_cases hb : at_ ≥ a.size
    · rw [if_pos hb] at hr; cases hr; cases hret
    · rw [if_neg hb] at hr
      cases hcp : memcpy a.elements (u64 (at_ * a.msize)) e 0 a.msize with
      | error f => simp [bind, Except.bind, hcp] at hr
      | ok o =>
        have := (memcpy_bounds hcp).1
        omega

/-- On a valid array `carray_delete` at an index below the length returns true; each
slot from `at` up to the new length holds the old slot after it, the others are
unchanged. -/
theorem delete_spec (a : CArray) (at_ : Nat) (hv : Valid a) (hat : at_ < a.size) :
    ∃ out, carray_delete a at_ =
        .ok { ret := true, errno := none,
              array := { a with size := a.size - 1, elements := out } } ∧
      out.length = a.elements.length ∧
      ∀ k, slot a.msize out k =
        if at_ ≤ k ∧ k < a.size - 1 then slot a.msize a.elements (k + 1)
        else slot a.msize a.elements k := by
  obtain ⟨hm, hsz, hlen, hmax⟩ := hv
  have hm1 : 1 ≤ a.msize := hm
  have hc1 : a.capacity ≤ a.capacity * a.msize := Nat.le_mul_of_pos_right _ hm1
  have hu : u64 (a.size - 1) = a.size - 1 := u64_of_lt (by omega)
  have hsm : (a.size - 1) * a.msize + a.msize ≤ a.capacity * a.msize :=
    mul_succ_le a.msize (by omega : a.size - 1 < a.capacity)
  obtain ⟨out, h1, hl1, hs1⟩ :=
    delete_shift_spec a.msize (a.size - 1) (by omega) (a.size - 1) at_ a.elements (by omega)
      (by omega) (by omega)
  refine ⟨out, ?_, hl1, hs1⟩
  unfold carray_delete
  rw [if_neg (by omega), if_neg (by omega)]
  simp only [hu, bind, Except.bind, h1]
  rfl

/-- A successful `carray_resize` on a valid array returns a valid array of capacity at
least 16. -/
theorem resize_success_spec (calloc_ok : Bool) (a : CArray) (n : Nat) (r : Outcome)
    (hv : Valid a) (hr : carray_resize calloc_ok a n = .ok r) (hret : r.ret = true) :
    Valid r.array ∧ 16 ≤ r.array.capacity := by
  rcases resize_cases calloc_ok a n r hr with h | ⟨_, _, hms, hs, hc, fresh, hfr, hcp⟩
  · rw [h] at hret; cases hret
  · have hrc : (if n < CARRAY_CAPACITY_DEFAULT then CARRAY_CAPACITY_DEFAULT else n) =
        max n 16 := by
      unfold CARRAY_CAPACITY_DEFAULT
      split <;> omega
    have hrs : (if n < a.size then n else a.size) = min n a.size := by
      split <;> omega
    rw [hrc] at hc hfr
    rw [hrs] at hs hcp
    have hfl : fresh.length = max n 16 * a.msize ∧ max n 16 * a.msize < 2 ^ 64 := by
      unfold calloc at hfr
      split at hfr
      · rename_i hcond
        cases hfr
        exact ⟨by simp, hcond.2⟩
      · cases hfr
    have hlen : r.array.elements.length = fresh.length := by
      by_cases hpos : min n a.size > 0
      · rw [if_pos hpos] at hcp
        exact memcpy_length hcp
      · rw [if_neg hpos] at hcp
        cases hcp
        rfl
    refine ⟨⟨by rw [hms]; exact hv.1, by rw [hs, hc]; omega, by rw [hlen, hc, hms]; exact hfl.1,
      by rw [hc, hms]; exact hfl.2⟩, by rw [hc]; omega⟩


/-! ## Claims on frames, invariants and bounds -/

/-- C14: on a valid array and for an index `at < size`, every successful `carray_update`
changes only slot `at`: each other slot holds the same bytes, `carray_read` at each
other index below the length returns the same bytes as before, and the length, the
capacity and the element width are unchanged.  The call succeeds when the element has
`msize` bytes. -/
theorem carray_update_frame (a : CArray) (e : List Byte) (at_ : Nat) (hv : Valid a)
    (hat : at_ < a.size) :
    (a.msize ≤ e.length → ∃ r, carray_update a e at_ = .ok r ∧ r.ret = true) ∧
    ∀ r, carray_update a e at_ = .ok r → r.ret = true →
      r.array.size = a.size ∧ r.array.capacity = a.capacity ∧ r.array.msize = a.msize ∧
      (∀ i, i ≠ at_ → slot r.array.msize r.array.elements i = slot a.msize a.elements i) ∧
      (∀ i out, i ≠ at_ → i < a.size → a.msize ≤ out.length →
        ∃ r1 r2, carray_read r.array out i = .ok r1 ∧ carray_read a out i = .ok r2 ∧
          r1.ret = true ∧ r2.ret = true ∧ r1.out_ele = r2.out_ele) := by
  constructor
  · intro he
    obtain ⟨out, h, _⟩ := update_spec a e at_ hv hat he
    exact ⟨_, h, rfl⟩
  · intro r hr hret
    have he := update_needs_element a e at_ r hr hret
    obtain ⟨out, h, hl, hs⟩ := update_spec a e at_ hv hat he
    rw [hr] at h
    cases h
    have hv2 : Valid { a with elements := out } :=
      ⟨hv.1, hv.2.1, by simp only; rw [hl]; exact hv.2.2.1, hv.2.2.2⟩
    have hslots : ∀ i, i ≠ at_ → slot a.msize out i = slot a.msize a.elements i := by
      intro i hi
      rw [hs i, if_neg hi]
    refine ⟨rfl, rfl, rfl, hslots, ?_⟩
    intro i o hi hlt ho
    refine ⟨_, _, read_spec { a with elements := out } o i hv2 hlt ho,
      read_spec a o i hv hlt ho, rfl, rfl, ?_⟩
    simp only
    rw [hslots i hi]

theorem carray_update_frame_witness :
    Valid sample_five ∧ 2 < sample_five.size ∧
      ∃ r, carray_update sample_five (le32 9) 2 = .ok r ∧ r.ret = true ∧
        contents r.array = [le32 1, le32 2, le32 9, le32 4, le32 5] ∧
        slot r.array.msize r.array.elements 3 = le32 4 := by
  have h := carray_update_frame sample_five (le32 9) 2 (by decide) (by decide)
  obtain ⟨r, hr, hret⟩ := h.1 (by decide)
  obtain ⟨_, _, _, hsl, _⟩ := h.2 r hr hret
  have e1 : carray_update sample_five (le32 9) 2 =
      .ok { ret := true, errno := none,
            array := { sample_five with
              elements := le32 1 ++ le32 2 ++ le32 9 ++ le32 4 ++ le32 5 ++
                List.replicate 44 0 } } := by decide
  rw [e1] at hr
  cases hr
  exact ⟨by decide, by decide, _, e1, rfl, by decide, by rw [hsl 3 (by decide)]; decide⟩

/-- Every call of `apply_op` that returns keeps the representation invariant and a
capacity of at least 16. -/
theorem apply_op_invariant (a : CArray) (op : Op) (r : Outcome) (hv : Valid a)
    (hc : 16 ≤ a.capacity) (hr : apply_op a op = .ok r) :
    Valid r.array ∧ 16 ≤ r.array.capacity := by
  cases op with
  | create calloc_ok e at_ =>
    have hr2 : carray_create calloc_ok a e at_ = .ok r := hr
    by_cases hret : r.ret = true
    · obtain ⟨hv2, _, _, hcap⟩ := create_success_spec calloc_ok a e at_ r hv hr2 hret
      refine ⟨hv2, ?_⟩
      rw [hcap]
      split <;> omega
    · rcases create_cases calloc_ok a e at_ r hr2 with ⟨_, h⟩ | ⟨_, _, h⟩ | ⟨_, g, _, ht, _⟩
      · rw [h]; exact ⟨hv, hc⟩
      · rw [h]; exact ⟨hv, hc⟩
      · exact absurd ht hret
  | update e at_ =>
    have hr2 : carray_update a e at_ = .ok r := hr
    rcases update_cases a e at_ r hr2 with ⟨_, h⟩ | ⟨_, _, h⟩ | ⟨_, hat, hret, _⟩
    · rw [h]; exact ⟨hv, hc⟩
    · rw [h]; exact ⟨hv, hc⟩
    · have he := update_needs_element a e at_ r hr2 hret
      obtain ⟨out, h, hl, _⟩ := update_spec a e at_ hv hat he
      rw [hr2] at h
      cases h
      exact ⟨⟨hv.1, hv.2.1, by simp only; rw [hl]; exact hv.2.2.1, hv.2.2.2⟩, hc⟩
  | delete at_ =>
    have hr2 : carray_delete a at_ = .ok r := hr
    rcases delete_cases a at_ r hr2 with ⟨_, h⟩ | ⟨_, _, h⟩ | ⟨_, hat, _, _⟩
    · rw [h]; exact ⟨hv, hc⟩
    · rw [h]; exact ⟨hv, hc⟩
    · obtain ⟨out, h, hl, _⟩ := delete_spec a at_ hv hat
      rw [hr2] at h
      cases h
      have hsz := hv.2.1
      exact ⟨⟨hv.1, by simp only; omega, by simp only; rw [hl]; exact hv.2.2.1, hv.2.2.2⟩, hc⟩
  | resize calloc_ok n =>
    have hr2 : carray_resize calloc_ok a n = .ok r := hr
    by_cases hret : r.ret = true
    · exact resize_success_spec calloc_ok a n r hv hr2 hret
    · rcases resize_cases calloc_ok a n r hr2 with h | ⟨ht, _⟩
      · rw [h]; exact ⟨hv, hc⟩
      · exact absurd ht hret

/-- The invariant of `apply_op_invariant` holds along every sequence of calls. -/
theorem run_ops_invariant (ops : List Op) :
    ∀ (a b : CArray), Valid a → 16 ≤ a.capacity → run_ops a ops = .ok b →
      Valid b ∧ 16 ≤ b.capacity := by
  induction ops with
  | nil =>
    intro a b hv hc h
    cases h
    exact ⟨hv, hc⟩
  | cons op rest ih =>
    intro a b hv hc h
    unfold run_ops at h
    cases hop : apply_op a op with
    | error f => simp [bind, Except.bind, hop] at h
    | ok r =>
      simp only [bind, Except.bind, hop] at h
      obtain ⟨hv2, hc2⟩ := apply_op_invariant a op r hv hc hop
      exact ih r.array b hv2 hc2 h

/-- C15: every array obtained from a successful `carray_new` by a finite sequence of
`carray_create`, `carray_update`, `carray_delete` and `carray_resize` calls, each
returning true or false, satisfies `size <= capacity` and `capacity >= 16`. -/
theorem reachable_size_le_capacity (malloc_ok calloc_ok : Bool) (w : Nat) (a0 a : CArray)
    (ops : List Op) (hnew : (carray_new malloc_ok calloc_ok w).2 = some a0)
    (hrun : run_ops a0 ops = .ok a) :
    a.size ≤ a.capacity ∧ CARRAY_CAPACITY_DEFAULT ≤ a.capacity := by
  obtain ⟨hv, _, hc, _⟩ := new_spec malloc_ok calloc_ok w a0 hnew
  obtain ⟨hvb, hcb⟩ := run_ops_invariant ops a0 a hv (by omega) hrun
  exact ⟨hvb.2.1, hcb⟩


theorem reachable_size_le_capacity_witness :
    ∃ a0 a, (carray_new true true 1).2 = some a0 ∧ run_ops a0 sample_ops = .ok a ∧
      a.size = 1 ∧ a.size ≤ a.capacity ∧ CARRAY_CAPACITY_DEFAULT ≤ a.capacity := by
  have e : run_ops { msize := 1, size := 0, capacity := 16, elements := List.replicate 16 0 }
      sample_ops =
      .ok { msize := 1, size := 1, capacity := 16,
            elements := [9, 1] ++ List.replicate 14 0 } := by decide
  have h := reachable_size_le_capacity true true 1 _ _ sample_ops rfl e
  exact ⟨_, _, rfl, e, rfl, h.1, h.2⟩

/-- C17: with the fields as 64-bit unsigned integers (`capacity * 2` computed modulo
`2 ^ 64`), for every valid array state (so `size <= capacity`), a successful
`carray_create` never decreases the capacity: when the array was full the doubling
did not wrap and the capacity is exactly twice the old one, the array holds one more
element within its capacity, and every old element is still there, in order. -/
theorem create_never_shrinks_capacity (calloc_ok : Bool) (a : CArray) (e : List Byte)
    (at_ : Nat) (r : Outcome) (hv : Valid a) (hr : carray_create calloc_ok a e at_ = .ok r)
    (hret : r.ret = true) :
    a.capacity ≤ r.array.capacity ∧ r.array.size = a.size + 1 ∧
      r.array.size ≤ r.array.capacity ∧
      (a.size = a.capacity → r.array.capacity = 2 * a.capacity ∧ a.capacity * 2 < 2 ^ 64) ∧
      contents r.array =
        (contents a).take at_ ++ [e.take a.msize] ++ (contents a).drop at_ := by
  obtain ⟨hv2, hs, hm, hc⟩ := create_success_spec calloc_ok a e at_ r hv hr hret
  refine ⟨?_, hs, hv2.2.1, ?_, create_contents_spec calloc_ok a e at_ r hv hr hret⟩
  · rw [hc]
    split <;> omega
  · intro hfull
    rw [if_pos hfull] at hc
    refine ⟨hc, ?_⟩
    have h1 : 1 ≤ r.array.msize := hv2.1
    have h2 := hv2.2.2.2
    have h3 : r.array.capacity ≤ r.array.capacity * r.array.msize :=
      Nat.le_mul_of_pos_right _ h1
    omega

theorem create_never_shrinks_capacity_witness :
    Valid sample_full ∧
      ∃ r, carray_create true sample_full [9] 0 = .ok r ∧ r.ret = true ∧
        sample_full.capacity ≤ r.array.capacity ∧ r.array.capacity = 32 := by
  have e : carray_create true sample_full [9] 0 =
      .ok { ret := true, errno := none,
            array := { msize := 1, size := 17, capacity := 32,
                       elements := [9] ++ List.replicate 16 7 ++ List.replicate 15 0 } } := by
    decide
  exact ⟨by decide, _, e, rfl,
    (create_never_shrinks_capacity true sample_full [9] 0 _ (by decide) e rfl).1, rfl⟩

/-- C18: on a valid array with contents `s`, for every element and every index
`at <= size`, after a successful `carray_create(a, e, at)` the call `carray_delete(a, at)`
returns true and leaves the contents `s` and the original length; the capacity stays
what the insertion made it. -/
theorem carray_create_then_delete (calloc_ok : Bool) (a : CArray) (e : List Byte) (at_ : Nat)
    (r : Outcome) (hv : Valid a) (hat : at_ ≤ a.size)
    (hr : carray_create calloc_ok a e at_ = .ok r) (hret : r.ret = true) :
    ∃ r2, carray_delete r.array at_ = .ok r2 ∧ r2.ret = true ∧
      contents r2.array = contents a ∧ r2.array.size = a.size ∧
      r2.array.capacity = r.array.capacity := by
  obtain ⟨hv2, hs, hm, _⟩ := create_success_spec calloc_ok a e at_ r hv hr hret
  obtain ⟨_, _, hsl⟩ := create_slots_spec calloc_ok a e at_ r hv hr hret
  obtain ⟨out, hd, _, hds⟩ := delete_spec r.array at_ hv2 (by omega)
  refine ⟨_, hd, rfl, ?_, by simp only; omega, rfl⟩
  apply List.ext_getElem?
  intro j
  rw [contents_getElem?, contents_getElem?]
  simp only
  rw [hs, Nat.add_sub_cancel]
  by_cases hj : j < a.size
  · rw [if_pos hj, if_pos hj, hds j, hs, Nat.add_sub_cancel]
    by_cases hj1 : at_ ≤ j
    · rw [if_pos ⟨hj1, hj⟩, hsl (j + 1) (by omega), if_neg (by omega), if_neg (by omega),
        Nat.add_sub_cancel]
    · have h1 : ¬ (at_ ≤ j ∧ j < a.size) := fun h => hj1 h.1
      rw [if_neg h1, hsl j (by omega), if_pos (by omega)]
  · rw [if_neg hj, if_neg hj]

theorem carray_create_then_delete_witness :
    Valid sample_full ∧ 3 ≤ sample_full.size ∧
      ∃ r r2, carray_create true sample_full [9] 3 = .ok r ∧ r.ret = true ∧
        carray_delete r.array 3 = .ok r2 ∧ r2.ret = true ∧
        contents r2.array = contents sample_full ∧ r2.array.size = 16 ∧
        r2.array.capacity = 32 := by
  have e : carray_create true sample_full [9] 3 =
      .ok { ret := true, errno := none,
            array := { msize := 1, size := 17, capacity := 32,
                       elements := List.replicate 3 7 ++ [9] ++ List.replicate 13 7 ++
                         List.replicate 15 0 } } := by
    decide
  obtain ⟨r2, hd, hret2, hc, hs, hcap⟩ :=
    carray_create_then_delete true sample_full [9] 3 _ (by decide) (by decide) e rfl
  exact ⟨by decide, by decide, _, r2, e, rfl, hd, hret2, hc, hs, hcap⟩


/-! ## `carray_copy` -/

/-- On a valid array `carray_create` returns true when the element has `msize` bytes,
the index is at most the length, and a slot is free or the doubled buffer is granted. -/
theorem create_succeeds (calloc_ok : Bool) (a : CArray) (e : List Byte) (at_ : Nat)
    (hv : Valid a) (he : a.msize ≤ e.length) (hat : at_ ≤ a.size)
    (hfree : a.size < a.capacity ∨
      (calloc_ok = true ∧ 0 < a.capacity ∧ a.capacity * 2 * a.msize < 2 ^ 64)) :
    ∃ r, carray_create calloc_ok a e at_ = .ok r ∧ r.ret = true := by
  obtain ⟨g, hg⟩ := create_grow_ok calloc_ok a hv (hfree.imp id (fun h => ⟨h.1, h.2.2⟩))
  obtain ⟨_, _, hgc, _⟩ := create_grow_spec calloc_ok a g hv hg
  have hlt : a.size < g.capacity := by
    have := hv.2.1
    by_cases hf : a.size = a.capacity
    · rw [if_pos hf] at hgc
      rcases hfree with h | h <;> omega
    · rw [if_neg hf] at hgc; omega
  obtain ⟨out, hr, _⟩ := (create_of_grow calloc_ok a g e at_ hv he hat hg).1 hlt
  exact ⟨_, hr, rfl⟩

theorem smallest_doubling_zero : SmallestDoubling 16 0 := by
  refine ⟨0, by norm_num, by omega, ?_⟩
  intro j _
  have : 1 ≤ 2 ^ j := Nat.one_le_two_pow
  omega

/-- One insertion keeps the capacity the smallest of 16, 32, 64, ... that holds the
elements: it doubles exactly when the array was full. -/
theorem smallest_doubling_step (capacity n : Nat) (h : SmallestDoubling capacity n) :
    SmallestDoubling (if n = capacity then 2 * capacity else capacity) (n + 1) := by
  obtain ⟨k, hk, hle, hmin⟩ := h
  have hpos : 1 ≤ 2 ^ k := Nat.one_le_two_pow
  by_cases hf : n = capacity
  · rw [if_pos hf]
    refine ⟨k + 1, by rw [hk, Nat.pow_succ]; ring, by omega, ?_⟩
    intro j hj
    have hlt : 2 ^ k < 2 ^ j := by omega
    have hkj : k < j := (Nat.pow_lt_pow_iff_right (by norm_num)).mp hlt
    have hle2 : 2 ^ (k + 1) ≤ 2 ^ j := Nat.pow_le_pow_right (by norm_num) hkj
    rw [hk]
    have : 2 * (16 * 2 ^ k) = 16 * 2 ^ (k + 1) := by rw [Nat.pow_succ]; ring
    omega
  · rw [if_neg hf]
    exact ⟨k, hk, by omega, fun j hj => hmin j (by omega)⟩

/-- The loop of `carray_copy` on a valid source, entered at index `i` with a valid clone
that holds the first `i` slots of the source: whatever it returns, the source is
unchanged, and a returned clone is valid, has the width, length and slots of the
source, and the smallest capacity of the doubling series that holds them. -/
theorem copy_loop_spec (grow_ok : Nat → Bool) (src : CArray) (hv : Valid src) :
    ∀ (fuel i : Nat) (cpy : CArray) (buf : List Byte), Valid cpy → cpy.msize = src.msize →
      cpy.size = i → i ≤ src.size → buf.length = src.msize →
      (∀ k, k < i → slot cpy.msize cpy.elements k = slot src.msize src.elements k) →
      SmallestDoubling cpy.capacity i →
      ∀ o, carray_copy_loop grow_ok fuel i src cpy buf = .ok o →
        o.array = src ∧ ∀ c, o.result = some c →
          Valid c ∧ c.msize = src.msize ∧ c.size = src.size ∧
          (∀ k, k < src.size → slot c.msize c.elements k = slot src.msize src.elements k) ∧
          SmallestDoubling c.capacity src.size := by
  have hm1 : 1 ≤ src.msize := hv.1
  have hmax := hv.2.2.2
  have hsz := hv.2.1
  have hc1 : src.capacity ≤ src.capacity * src.msize := Nat.le_mul_of_pos_right _ hm1
  intro fuel
  induction fuel with
  | zero =>
    intro i cpy buf hvc hcm hcs hi hb hsl hsd o ho
    unfold carray_copy_loop at ho
    by_cases hlt : i < src.size
    · rw [if_pos hlt] at ho; cases ho
    · rw [if_neg hlt] at ho
      cases ho
      have hie : i = src.size := by omega
      refine ⟨rfl, ?_⟩
      intro c hc
      cases hc
      exact ⟨hvc, hcm, by omega, by rw [← hie]; exact hsl, by rw [← hie]; exact hsd⟩
  | succ fuel ih =>
    intro i cpy buf hvc hcm hcs hi hb hsl hsd o ho
    unfold carray_copy_loop at ho
    by_cases hlt : i < src.size
    · rw [if_pos hlt, read_spec src buf i hv hlt (by omega)] at ho
      have hdrop : buf.drop src.msize = [] := List.drop_of_length_le (by omega)
      simp only [bind, Except.bind, hdrop, List.append_nil] at ho
      rw [if_neg (by decide)] at ho
      cases hc : carray_create (grow_ok i) cpy (slot src.msize src.elements i) i with
      | error f => rw [hc] at ho; cases ho
      | ok c =>
        rw [hc] at ho
        simp only at ho
        by_cases hret : c.ret = false
        · rw [if_pos hret] at ho
          cases ho
          exact ⟨rfl, fun c h => by cases h⟩
        · rw [if_neg hret] at ho
          have hret2 : c.ret = true := by
            cases hb2 : c.ret
            · exact absurd hb2 hret
            · rfl
          obtain ⟨hv2, hs2, hm2, hcap2⟩ := create_success_spec _ cpy _ i c hvc hc hret2
          obtain ⟨_, _, hsl2⟩ := create_slots_spec _ cpy _ i c hvc hc hret2
          have hu : u64 (i + 1) = i + 1 := u64_of_lt (by omega)
          rw [hu] at ho
          have hslen : (slot src.msize src.elements i).length = src.msize :=
            slot_length _ _ _ (by
              have := mul_succ_le src.msize (by omega : i < src.capacity)
              rw [hv.2.2.1]; exact this)
          refine ih (i + 1) c.array (slot src.msize src.elements i) hv2 (by rw [hm2, hcm])
            (by rw [hs2, hcs]) (by omega) hslen ?_ ?_ o ho
          · intro k hk
            rw [hsl2 k (by omega)]
            by_cases hk1 : k < i
            · rw [if_pos hk1, hsl k hk1]
            · have hki : k = i := by omega
              rw [if_neg hk1, if_pos hki, hki, hcm]
              exact List.take_of_length_le (by omega)
          · rw [hcap2, hcs]
            exact smallest_doubling_step _ _ hsd
    · rw [if_neg hlt] at ho
      cases ho
      have hie : i = src.size := by omega
      refine ⟨rfl, ?_⟩
      intro c hc
      cases hc
      exact ⟨hvc, hcm, by omega, by rw [← hie]; exact hsl, by rw [← hie]; exact hsd⟩


/-- When every growth is granted and twice the bytes of the source fit in `size_t`, the
loop of `carray_copy` ends within `size` iterations and returns a clone. -/
theorem copy_loop_ok (grow_ok : Nat → Bool) (src : CArray) (hv : Valid src)
    (hg : ∀ i, grow_ok i = true) (hfit : src.size * 2 * src.msize < 2 ^ 64) :
    ∀ (fuel i : Nat) (cpy : CArray) (buf : List Byte), Valid cpy → cpy.msize = src.msize →
      cpy.size = i → i ≤ src.size → buf.length = src.msize → 0 < cpy.capacity →
      src.size ≤ i + fuel →
      ∃ c, carray_copy_loop grow_ok fuel i src cpy buf =
        .ok { errno := none, result := some c, array := src } := by
  have hm1 : 1 ≤ src.msize := hv.1
  have hmax := hv.2.2.2
  have hsz := hv.2.1
  have hc1 : src.capacity ≤ src.capacity * src.msize := Nat.le_mul_of_pos_right _ hm1
  intro fuel
  induction fuel with
  | zero =>
    intro i cpy buf _ _ _ hi _ _ hf
    have hlt : ¬ i < src.size := by omega
    exact ⟨cpy, by unfold carray_copy_loop; rw [if_neg hlt]; rfl⟩
  | succ fuel ih =>
    intro i cpy buf hvc hcm hcs hi hb hcap hf
    by_cases hlt : i < src.size
    · have hdrop : buf.drop src.msize = [] := List.drop_of_length_le (by omega)
      have hslen : (slot src.msize src.elements i).length = src.msize :=
        slot_length _ _ _ (by
          have := mul_succ_le src.msize (by omega : i < src.capacity)
          rw [hv.2.2.1]; exact this)
      have hgrow : cpy.size < cpy.capacity ∨
          (grow_ok i = true ∧ 0 < cpy.capacity ∧ cpy.capacity * 2 * cpy.msize < 2 ^ 64) := by
        by_cases hfull : cpy.size < cpy.capacity
        · exact Or.inl hfull
        · right
          have hce : cpy.capacity = i := by
            have := hvc.2.1
            omega
          refine ⟨hg i, hcap, ?_⟩
          rw [hce, hcm]
          have h1 : i * 2 ≤ src.size * 2 := by omega
          have h2 := Nat.mul_le_mul_right src.msize h1
          omega
      obtain ⟨c, hc, hret⟩ := create_succeeds (grow_ok i) cpy (slot src.msize src.elements i) i
        hvc (by omega) (by omega) hgrow
      obtain ⟨hv2, hs2, hm2, hcap2⟩ := create_success_spec _ cpy _ i c hvc hc hret
      have hu : u64 (i + 1) = i + 1 := u64_of_lt (by omega)
      obtain ⟨c2, hc2⟩ := ih (i + 1) c.array (slot src.msize src.elements i) hv2
        (by rw [hm2, hcm]) (by rw [hs2, hcs]) (by omega) hslen
        (by rw [hcap2]; split <;> omega) (by omega)
      refine ⟨c2, ?_⟩
      unfold carray_copy_loop
      rw [if_pos hlt, read_spec src buf i hv hlt (by omega)]
      simp only [bind, Except.bind, hdrop, List.append_nil]
      rw [if_neg (by decide), hc]
      simp only
      rw [if_neg (by rw [hret]; decide), hu]
      exact hc2
    · exact ⟨cpy, by unfold carray_copy_loop; rw [if_neg hlt]; rfl⟩

/-- Every return of `carray_copy` on a valid source leaves the source unchanged, and a
returned clone is valid, has the width, length and slots of the source, and the
smallest capacity of the doubling series that holds them. -/
theorem copy_spec (malloc_ok calloc_ok buf_ok : Bool) (grow_ok : Nat → Bool) (a : CArray)
    (o : CopyOutcome) (hv : Valid a)
    (ho : carray_copy malloc_ok calloc_ok buf_ok grow_ok a = .ok o) :
    o.array = a ∧ ∀ c, o.result = some c →
      Valid c ∧ c.msize = a.msize ∧ c.size = a.size ∧
      (∀ k, k < a.size → slot c.msize c.elements k = slot a.msize a.elements k) ∧
      SmallestDoubling c.capacity a.size := by
  unfold carray_copy at ho
  cases hn : carray_new malloc_ok calloc_ok a.msize with
  | mk en res =>
    cases res with
    | none =>
      rw [hn] at ho
      cases ho
      exact ⟨rfl, fun c h => by cases h⟩
    | some cpy =>
      rw [hn] at ho
      simp only at ho
      obtain ⟨hvc, hcs, hcc, hcm, _⟩ :=
        new_spec malloc_ok calloc_ok a.msize cpy (by rw [hn])
      by_cases h0 : a.size = 0
      · rw [if_pos h0] at ho
        cases ho
        refine ⟨rfl, ?_⟩
        intro c hc
        cases hc
        refine ⟨hvc, hcm, by omega, fun k hk => by omega, ?_⟩
        rw [hcc, h0]
        exact smallest_doubling_zero
      · rw [if_neg h0] at ho
        cases hb : calloc buf_ok 1 a.msize with
        | none =>
          rw [hb] at ho
          cases ho
          exact ⟨rfl, fun c h => by cases h⟩
        | some buf =>
          rw [hb] at ho
          simp only at ho
          have hbl : buf.length = a.msize := by
            unfold calloc at hb
            split at hb
            · cases hb; simp
            · cases hb
          exact copy_loop_spec grow_ok a hv a.size 0 cpy buf hvc hcm hcs (by omega) hbl
            (fun k hk => by omega) (by rw [hcc]; exact smallest_doubling_zero) o ho

/-- When every allocation is granted, the width is at most `CARRAY_MSIZE_MAX` and twice
the bytes of the source fit in `size_t`, `carray_copy` on a valid source returns a
clone. -/
theorem copy_ok (grow_ok : Nat → Bool) (a : CArray) (hv : Valid a)
    (hg : ∀ i, grow_ok i = true) (hw : a.msize ≤ 4095)
    (hfit : a.size * 2 * a.msize < 2 ^ 64) :
    ∃ c, carray_copy true true true grow_ok a =
      .ok { errno := none, result := some c, array := a } := by
  have hm1 : 1 ≤ a.msize := hv.1
  have hw2 : ¬ (a.msize > CARRAY_MSIZE_MAX ∨ a.msize < CARRAY_MSIZE_MIN) := by
    unfold CARRAY_MSIZE_MAX CARRAY_MSIZE_MIN; omega
  have hfit16 : CARRAY_CAPACITY_DEFAULT * a.msize < 2 ^ 64 := by
    unfold CARRAY_CAPACITY_DEFAULT; omega
  have hn : carray_new true true a.msize =
      (none, some { msize := a.msize, size := CARRAY_SIZE_DEFAULT,
                    capacity := CARRAY_CAPACITY_DEFAULT,
                    elements := List.replicate (CARRAY_CAPACITY_DEFAULT * a.msize) 0 }) := by
    unfold carray_new calloc
    rw [if_neg hw2, if_neg (by decide), if_pos ⟨rfl, hfit16⟩]
  obtain ⟨hvc, hcs, hcc, hcm, _⟩ := new_spec true true a.msize _ (by rw [hn])
  unfold carray_copy
  rw [hn]
  simp only
  by_cases h0 : a.size = 0
  · rw [if_pos h0]
    exact ⟨_, rfl⟩
  · rw [if_neg h0]
    have hb : calloc true 1 a.msize = some (List.replicate (1 * a.msize) 0) := by
      unfold calloc
      rw [if_pos ⟨rfl, by omega⟩]
    rw [hb]
    simp only
    exact copy_loop_ok grow_ok a hv hg hfit a.size 0 _ _ hvc hcm hcs (by omega) (by simp)
      (by rw [hcc]; omega) (by omega)


/-- C13: for every valid source array (empty or not), every clone that `carray_copy`
returns has the same element width and the same length, and `carray_read` at each
index below the length returns from the clone byte for byte what it returns from the
source, so the contents are equal; the source is unchanged.  A clone is returned
whenever every allocation is granted and the requests fit in `size_t`. -/
theorem carray_copy_clone (malloc_ok calloc_ok buf_ok : Bool) (grow_ok : Nat → Bool)
    (a : CArray) (hv : Valid a) :
    ((malloc_ok = true ∧ calloc_ok = true ∧ buf_ok = true ∧ (∀ i, grow_ok i = true) ∧
        a.msize ≤ 4095 ∧ a.size * 2 * a.msize < 2 ^ 64) →
      ∃ o c, carray_copy malloc_ok calloc_ok buf_ok grow_ok a = .ok o ∧ o.result = some c) ∧
    ∀ o c, carray_copy malloc_ok calloc_ok buf_ok grow_ok a = .ok o → o.result = some c →
      c.msize = a.msize ∧ c.size = a.size ∧ contents c = contents a ∧
      (∀ i out, i < a.size → a.msize ≤ out.length →
        ∃ r1 r2, carray_read c out i = .ok r1 ∧ carray_read a out i = .ok r2 ∧
          r1.ret = true ∧ r2.ret = true ∧ r1.out_ele = r2.out_ele) ∧
      o.array = a := by
  constructor
  · rintro ⟨h1, h2, h3, hg, hw, hfit⟩
    subst h1 h2 h3
    obtain ⟨c, hc⟩ := copy_ok grow_ok a hv hg hw hfit
    exact ⟨_, c, hc, rfl⟩
  · intro o c ho hc
    obtain ⟨hsrc, hall⟩ := copy_spec malloc_ok calloc_ok buf_ok grow_ok a o hv ho
    obtain ⟨hvc, hm, hs, hsl, _⟩ := hall c hc
    refine ⟨hm, hs, ?_, ?_, hsrc⟩
    · apply List.ext_getElem?
      intro j
      rw [contents_getElem?, contents_getElem?, hs]
      by_cases hj : j < a.size
      · rw [if_pos hj, if_pos hj, hsl j hj]
      · rw [if_neg hj, if_neg hj]
    · intro i out hi hout
      refine ⟨_, _, read_spec c out i hvc (by omega) (by omega), read_spec a out i hv hi hout,
        rfl, rfl, ?_⟩
      simp only
      rw [hsl i hi, hm]

set_option maxRecDepth 100000 in
theorem carray_copy_clone_witness :
    Valid sample_five ∧
      ∃ o c, carray_copy true true true (fun _ => true) sample_five = .ok o ∧
        o.result = some c ∧ c.size = 5 ∧
        contents c = [le32 1, le32 2, le32 3, le32 4, le32 5] ∧ o.array = sample_five := by
  have h := carray_copy_clone true true true (fun _ => true) sample_five (by decide)
  obtain ⟨o, c, ho, hc⟩ := h.1 ⟨rfl, rfl, rfl, fun _ => rfl, by decide, by decide⟩
  obtain ⟨_, hs, hcont, _, hsrc⟩ := h.2 o c ho hc
  exact ⟨by decide, o, c, ho, hc, by rw [hs]; decide, by rw [hcont]; decide, hsrc⟩

/-- C19: `carray_copy` does not preserve capacity: for every valid source array, the
capacity of a returned clone is the smallest value among 16, 32, 64, ... that is at
least the length of the source, whatever the capacity of the source; a source of at
most 16 elements, such as three elements in 100 slots, is cloned with capacity 16. -/
theorem carray_copy_capacity (malloc_ok calloc_ok buf_ok : Bool) (grow_ok : Nat → Bool)
    (a : CArray) (o : CopyOutcome) (c : CArray) (hv : Valid a)
    (ho : carray_copy malloc_ok calloc_ok buf_ok grow_ok a = .ok o)
    (hc : o.result = some c) :
    SmallestDoubling c.capacity a.size ∧ (a.size ≤ 16 → c.capacity = 16) := by
  obtain ⟨_, hall⟩ := copy_spec malloc_ok calloc_ok buf_ok grow_ok a o hv ho
  obtain ⟨_, _, _, _, hsd⟩ := hall c hc
  refine ⟨hsd, ?_⟩
  intro hle
  obtain ⟨k, hk, _, hmin⟩ := hsd
  have h1 := hmin 0 (by omega)
  have h2 : 1 ≤ 2 ^ k := Nat.one_le_two_pow
  omega

set_option maxRecDepth 100000 in
theorem carray_copy_capacity_witness :
    Valid sample_three_wide ∧
      carray_resize true
          { msize := 4, size := 3, capacity := 16,
            elements := le32 1 ++ le32 2 ++ le32 3 ++ List.replicate 52 0 } 100 =
        .ok { ret := true, errno := none, array := sample_three_wide } ∧
      sample_three_wide.capacity = 100 ∧
      ∃ o c, carray_copy true true true (fun _ => true) sample_three_wide = .ok o ∧
        o.result = some c ∧ c.capacity = 16 := by
  have e : carray_copy true true true (fun _ => true) sample_three_wide =
      .ok { errno := none,
            result := some { msize := 4, size := 3, capacity := 16,
                             elements := le32 1 ++ le32 2 ++ le32 3 ++ List.replicate 52 0 },
            array := sample_three_wide } := by decide
  exact ⟨by decide, by decide, rfl, _, _, e, rfl,
    (carray_copy_capacity true true true (fun _ => true) sample_three_wide _ _ (by decide) e
      rfl).2 (by decide)⟩


/-! ## Slot accesses: the record and the run -/

end CArray
